import Mathlib

/-!
Verification development for the Alchemist-Repos name-normalization scripts
(`keatonthebot_aio.py`, `stevensnd_aio.py`, `theboy181_aio.py`,
`fl4sh9174_aio.py`).  Strings are modelled as lists of Unicode code points
(`Str := List Nat`), so that Python's ASCII case arithmetic and character
classes translate directly.  Each definition below is a shallow embedding of
the like-named Python function.
-/

namespace Alchemist

/-- Strings are lists of Unicode code points. -/
abbrev Str := List Nat

/-- Converts a Lean string literal into the code-point model. -/
def ofString (s : String) : Str := s.toList.map Char.toNat

/-- Python `str.lower` restricted to one character: ASCII letters A-Z map to
a-z, everything else is unchanged.  This is exact only on ASCII — Python's
full case mappings move and even expand non-ASCII characters — so theorems
built on it restrict their inputs to ASCII; the `Uni` namespace provides
the string-valued maps for the full mappings. -/
def lowerChar (c : Nat) : Nat := if 65 ≤ c ∧ c ≤ 90 then c + 32 else c

/-- Python `str.upper` restricted to one character: ASCII letters a-z map to
A-Z, everything else is unchanged (same ASCII-only boundary as
`lowerChar`; see the `Uni` namespace for the full mappings). -/
def upperChar (c : Nat) : Nat := if 97 ≤ c ∧ c ≤ 122 then c - 32 else c

/-- Python `str.lower` on a whole string (ASCII-exact, see `lowerChar`). -/
def strLower (s : Str) : Str := s.map lowerChar

/-- Python `str.upper` on a whole string (ASCII-exact, see `upperChar`). -/
def strUpper (s : Str) : Str := s.map upperChar

/-- Whitespace for Python `str.split()` / `str.strip()` / `\s`: ASCII
whitespace and control separators plus the Unicode space characters. -/
def pyIsSpace (c : Nat) : Bool :=
  (9 ≤ c ∧ c ≤ 13) ∨ (28 ≤ c ∧ c ≤ 32) ∨ c = 133 ∨ c = 160 ∨ c = 5760 ∨
  (8192 ≤ c ∧ c ≤ 8202) ∨ c = 8232 ∨ c = 8233 ∨ c = 8239 ∨ c = 8287 ∨ c = 12288

/-- Python `str.split()` with no argument: split on whitespace runs, dropping
empty pieces. -/
def splitWs : Str → List Str
  | [] => []
  | [c] => if pyIsSpace c then [] else [[c]]
  | c :: d :: s =>
    if pyIsSpace c then splitWs (d :: s)
    else
      match splitWs (d :: s) with
      | [] => [[c]]
      | w :: ws => if pyIsSpace d then [c] :: w :: ws else (c :: w) :: ws

/-- Python `sep.join(pieces)`. -/
def joinSep (sep : Str) : List Str → Str
  | [] => []
  | [w] => w
  | w :: ws => w ++ sep ++ joinSep sep ws

/-- Joins words with single ASCII spaces (`" ".join`). -/
def joinSp (ws : List Str) : Str := joinSep [32] ws

/-- Python `str.split(sep)` for a one-character separator: keeps empty
pieces, always returns at least one piece. -/
def splitOnC (c : Nat) : Str → List Str
  | [] => [[]]
  | a :: rest =>
    if a = c then [] :: splitOnC c rest
    else
      match splitOnC c rest with
      | [] => [[a]]
      | h :: t => (a :: h) :: t

/-- Python `str.strip()`: drop whitespace from both ends. -/
def pyStrip (s : Str) : Str :=
  ((s.dropWhile (fun c => pyIsSpace c)).reverse.dropWhile
    (fun c => pyIsSpace c)).reverse

/-- Python `str.lstrip()`. -/
def pyLstrip (s : Str) : Str := s.dropWhile (fun c => pyIsSpace c)

-- Basic character-level facts.

theorem lowerChar_upperChar (c : Nat) : lowerChar (upperChar c) = lowerChar c := by
  unfold lowerChar upperChar; split_ifs <;> omega

theorem upperChar_lowerChar (c : Nat) : upperChar (lowerChar c) = upperChar c := by
  unfold lowerChar upperChar; split_ifs <;> omega

theorem lowerChar_lowerChar (c : Nat) : lowerChar (lowerChar c) = lowerChar c := by
  unfold lowerChar; split_ifs <;> omega

theorem upperChar_upperChar (c : Nat) : upperChar (upperChar c) = upperChar c := by
  unfold upperChar; split_ifs <;> omega

theorem pyIsSpace_lowerChar (c : Nat) : pyIsSpace (lowerChar c) = pyIsSpace c := by
  unfold lowerChar pyIsSpace; split_ifs with h
  · simp only [decide_eq_decide]; omega
  · rfl

theorem strLower_strUpper (s : Str) : strLower (strUpper s) = strLower s := by
  unfold strLower strUpper; rw [List.map_map]
  exact List.map_congr_left (fun c _ => lowerChar_upperChar c)

theorem strLower_strLower (s : Str) : strLower (strLower s) = strLower s := by
  unfold strLower; rw [List.map_map]
  exact List.map_congr_left (fun c _ => lowerChar_lowerChar c)

theorem strUpper_strLower (s : Str) : strUpper (strLower s) = strUpper s := by
  unfold strLower strUpper; rw [List.map_map]
  exact List.map_congr_left (fun c _ => upperChar_lowerChar c)

-- splitWs / joinSp lemmas.

theorem splitWs_cons_cons (c d : Nat) (s : Str) :
    splitWs (c :: d :: s) =
      if pyIsSpace c then splitWs (d :: s)
      else
        match splitWs (d :: s) with
        | [] => [[c]]
        | w :: ws => if pyIsSpace d then [c] :: w :: ws else (c :: w) :: ws := rfl

theorem splitWs_cons_space {c : Nat} (h : pyIsSpace c = true) (s : Str) :
    splitWs (c :: s) = splitWs s := by
  cases s with
  | nil => simp [splitWs, h]
  | cons d t => simp [splitWs_cons_cons, h]

/-- Every word produced by `splitWs` is nonempty and whitespace-free. -/
theorem splitWs_clean (s : Str) :
    ∀ w ∈ splitWs s, w ≠ [] ∧ ∀ c ∈ w, pyIsSpace c = false := by
  induction s with
  | nil => simp [splitWs]
  | cons c t ih =>
    cases t with
    | nil =>
      intro w hw
      by_cases hc : pyIsSpace c = true
      · simp [splitWs, hc] at hw
      · simp only [Bool.not_eq_true] at hc
        simp [splitWs, hc] at hw
        subst hw
        exact ⟨by simp, by intro x hx; simp at hx; subst hx; exact hc⟩
    | cons d t' =>
      intro w hw
      by_cases hc : pyIsSpace c = true
      · rw [splitWs] at hw; simp only [hc, if_true] at hw
        exact ih w hw
      · simp only [Bool.not_eq_true] at hc
        rw [splitWs] at hw; simp only [hc, Bool.false_eq_true, if_false] at hw
        rcases hrec : splitWs (d :: t') with _ | ⟨w0, ws0⟩
        · rw [hrec] at hw; simp at hw
          subst hw
          exact ⟨by simp, by intro x hx; simp at hx; subst hx; exact hc⟩
        · rw [hrec] at hw
          by_cases hd : pyIsSpace d = true
          · simp only [hd, if_true, List.mem_cons] at hw
            rcases hw with hw | hw
            · subst hw
              exact ⟨by simp, by intro x hx; simp at hx; subst hx; exact hc⟩
            · exact ih w (by rw [hrec]; exact List.mem_cons.mpr hw)
          · simp only [Bool.not_eq_true] at hd
            simp only [hd, Bool.false_eq_true, if_false, List.mem_cons] at hw
            rcases hw with hw | hw
            · subst hw
              have h0 := ih w0 (by rw [hrec]; exact List.mem_cons_self w0 ws0)
              refine ⟨by simp, ?_⟩
              intro x hx
              rcases List.mem_cons.mp hx with hx | hx
              · subst hx; exact hc
              · exact h0.2 x hx
            · exact ih w (by rw [hrec]; exact List.mem_cons_of_mem w0 hw)

/-- Prepending a clean word (followed by nothing or whitespace) to a string
adds it as the first word. -/
theorem splitWs_append (w : Str) (hne : w ≠ [])
    (hcl : ∀ c ∈ w, pyIsSpace c = false) (t : Str)
    (ht : t = [] ∨ ∃ t0 ts, t = t0 :: ts ∧ pyIsSpace t0 = true) :
    splitWs (w ++ t) = w :: splitWs t := by
  induction w with
  | nil => exact absurd rfl hne
  | cons c w' ih =>
    have hc : pyIsSpace c = false := hcl c (List.mem_cons_self c w')
    cases w' with
    | nil =>
      rcases ht with rfl | ⟨t0, ts, rfl, ht0⟩
      · simp [splitWs, hc]
      · have : splitWs (t0 :: ts) = splitWs ts := splitWs_cons_space ht0 ts
        rw [List.cons_append, List.nil_append, splitWs]
        simp only [hc, Bool.false_eq_true, if_false, ht0, if_true]
        rw [this]
        rcases hrec : splitWs ts with _ | ⟨w0, ws0⟩
        · simp [splitWs_cons_space ht0, hrec]
        · simp [splitWs_cons_space ht0, hrec]
    | cons c2 w'' =>
      have hc2 : pyIsSpace c2 = false :=
        hcl c2 (List.mem_cons_of_mem c (List.mem_cons_self c2 w''))
      have ihw : splitWs (c2 :: w'' ++ t) = (c2 :: w'') :: splitWs t :=
        ih (by simp) (fun x hx => hcl x (List.mem_cons_of_mem c hx))
      have e1 : (c :: c2 :: w'') ++ t = c :: c2 :: (w'' ++ t) := by simp
      rw [e1, splitWs_cons_cons]
      simp only [hc, Bool.false_eq_true, if_false]
      rw [show c2 :: w'' ++ t = c2 :: (w'' ++ t) from rfl] at ihw
      rw [ihw]
      simp [hc2]

/-- Splitting the space-joined form of clean words recovers the words. -/
theorem splitWs_joinSp (ws : List Str)
    (h : ∀ w ∈ ws, w ≠ [] ∧ ∀ c ∈ w, pyIsSpace c = false) :
    splitWs (joinSp ws) = ws := by
  induction ws with
  | nil => simp [joinSp, joinSep, splitWs]
  | cons w rest ih =>
    have hw := h w (List.mem_cons_self w rest)
    cases rest with
    | nil =>
      have e : joinSp [w] = w ++ [] := by simp [joinSp, joinSep]
      rw [e, splitWs_append w hw.1 hw.2 [] (Or.inl rfl)]
      simp [splitWs]
    | cons r rest' =>
      have hj : joinSp (w :: r :: rest') = w ++ (32 :: joinSp (r :: rest')) := by
        simp [joinSp, joinSep]
      rw [hj, splitWs_append w hw.1 hw.2 _ (Or.inr ⟨32, joinSp (r :: rest'), rfl, by decide⟩)]
      rw [splitWs_cons_space (by decide)]
      rw [ih (fun x hx => h x (List.mem_cons_of_mem w hx))]

/-- `splitWs` commutes with a character map that preserves whitespace-ness. -/
theorem splitWs_map (f : Nat → Nat) (hf : ∀ c, pyIsSpace (f c) = pyIsSpace c)
    (s : Str) : splitWs (s.map f) = (splitWs s).map (List.map f) := by
  induction s with
  | nil => simp [splitWs]
  | cons c t ih =>
    cases t with
    | nil =>
      by_cases hc : pyIsSpace c = true
      · simp [splitWs, hf, hc]
      · simp only [Bool.not_eq_true] at hc
        simp [splitWs, hf, hc]
    | cons d t' =>
      by_cases hc : pyIsSpace c = true
      · rw [List.map_cons, splitWs_cons_space (by rw [hf]; exact hc),
          splitWs_cons_space hc]
        exact ih
      · simp only [Bool.not_eq_true] at hc
        rw [List.map_cons, List.map_cons, splitWs_cons_cons, splitWs_cons_cons]
        simp only [hf c, hc, Bool.false_eq_true, if_false]
        rw [show f d :: t'.map f = (d :: t').map f from rfl, ih]
        rcases hrec : splitWs (d :: t') with _ | ⟨w0, ws0⟩
        · simp
        · simp only [List.map_cons, hf d]
          by_cases hd : pyIsSpace d = true <;> simp [hd]

-- splitOnC / joinSep lemmas.

theorem splitOnC_ne_nil (c : Nat) (s : Str) : splitOnC c s ≠ [] := by
  cases s with
  | nil => simp [splitOnC]
  | cons a rest =>
    by_cases h : a = c
    · simp [splitOnC, h]
    · simp only [splitOnC, h, if_false]
      rcases hrec : splitOnC c rest with _ | ⟨p, ps⟩ <;> simp

theorem joinSep_splitOnC (c : Nat) (s : Str) :
    joinSep [c] (splitOnC c s) = s := by
  induction s with
  | nil => simp [splitOnC, joinSep]
  | cons a rest ih =>
    by_cases h : a = c
    · subst h
      simp only [splitOnC, if_true]
      rcases hrec : splitOnC a rest with _ | ⟨p, ps⟩
      · exact absurd hrec (splitOnC_ne_nil a rest)
      · rw [hrec] at ih
        simp [joinSep, ← ih]
    · simp only [splitOnC, h, if_false]
      rcases hrec : splitOnC c rest with _ | ⟨p, ps⟩
      · exact absurd hrec (splitOnC_ne_nil c rest)
      · rw [hrec] at ih
        cases ps with
        | nil => simpa [joinSep] using congrArg (a :: ·) ih
        | cons q qs => simpa [joinSep] using congrArg (a :: ·) ih

theorem splitOnC_chunks (c : Nat) (s : Str) :
    ∀ p ∈ splitOnC c s, c ∉ p := by
  induction s with
  | nil => simp [splitOnC]
  | cons a rest ih =>
    intro p hp
    by_cases h : a = c
    · simp only [splitOnC, h, if_true, List.mem_cons] at hp
      rcases hp with rfl | hp
      · simp
      · exact ih p hp
    · simp only [splitOnC, h, if_false] at hp
      rcases hrec : splitOnC c rest with _ | ⟨q, qs⟩
      · exact absurd hrec (splitOnC_ne_nil c rest)
      · rw [hrec] at hp
        rcases List.mem_cons.mp hp with rfl | hp
        · intro hmem
          rcases List.mem_cons.mp hmem with rfl | hmem
          · exact h rfl
          · exact ih q (by rw [hrec]; exact List.mem_cons_self q qs) hmem
        · exact ih p (by rw [hrec]; exact List.mem_cons_of_mem q hp)

theorem splitOnC_of_not_mem {c : Nat} {s : Str} (h : c ∉ s) :
    splitOnC c s = [s] := by
  induction s with
  | nil => simp [splitOnC]
  | cons a rest ih =>
    have ha : ¬ a = c := fun hac => h (hac ▸ List.mem_cons_self a rest)
    simp only [splitOnC, ha, if_false]
    rw [ih (fun hm => h (List.mem_cons_of_mem a hm))]

theorem splitOnC_map (c : Nat) (f : Nat → Nat) (hf : ∀ x, f x = c ↔ x = c)
    (s : Str) : splitOnC c (s.map f) = (splitOnC c s).map (List.map f) := by
  induction s with
  | nil => simp [splitOnC]
  | cons a rest ih =>
    by_cases h : a = c
    · simp only [List.map_cons, splitOnC, if_pos ((hf a).mpr h), if_pos h, ih,
        List.map_nil]
    · have hfa : ¬ f a = c := fun hc => h ((hf a).mp hc)
      simp only [List.map_cons, splitOnC, if_neg hfa, if_neg h, ih]
      rcases hrec : splitOnC c rest with _ | ⟨p, ps⟩
      · exact absurd hrec (splitOnC_ne_nil c rest)
      · simp

theorem joinSep_map (f : Nat → Nat) (sep : Str) (ws : List Str) :
    (joinSep sep ws).map f = joinSep (sep.map f) (ws.map (List.map f)) := by
  induction ws with
  | nil => simp [joinSep]
  | cons w rest ih =>
    cases rest with
    | nil => simp [joinSep]
    | cons r rest' =>
      simp only [joinSep, List.map_append, List.map_cons, ih]

-- Subtitle markers and the separator-keeping word split
-- (`re.split(r'([:~\-–—])', word)`).

/-- Characters of the subtitle-marker set: colon, tilde, hyphen, en dash,
em dash. -/
def isMarker (c : Nat) : Bool :=
  c = 58 ∨ c = 126 ∨ c = 45 ∨ c = 8211 ∨ c = 8212

/-- Python `any(m in word for m in subtitle_markers)`. -/
def containsMarker (w : Str) : Bool := w.any isMarker

/-- Python `re.split(r'([:~\-–—])', word)`: split on any marker character,
keeping each separator as its own one-character piece.  The result always
alternates chunk, separator, chunk, ... beginning and ending with a
(possibly empty) chunk. -/
def reSplitMarkers : Str → List Str
  | [] => [[]]
  | c :: rest =>
    if isMarker c then [] :: [c] :: reSplitMarkers rest
    else
      match reSplitMarkers rest with
      | [] => [[c]]
      | h :: t => (c :: h) :: t

/-- Python's membership test `part in subtitle_markers`: true exactly for a
one-character marker string. -/
def isMarkerSeg : Str → Bool
  | [c] => isMarker c
  | _ => false

theorem reSplitMarkers_ne_nil (s : Str) : reSplitMarkers s ≠ [] := by
  cases s with
  | nil => simp [reSplitMarkers]
  | cons c rest =>
    by_cases h : isMarker c
    · simp [reSplitMarkers, h]
    · simp only [reSplitMarkers, h, Bool.false_eq_true, if_false]
      rcases hrec : reSplitMarkers rest with _ | ⟨p, ps⟩ <;> simp

theorem reSplitMarkers_join (s : Str) :
    joinSep [] (reSplitMarkers s) = s := by
  induction s with
  | nil => simp [reSplitMarkers, joinSep]
  | cons c rest ih =>
    by_cases h : isMarker c
    · simp only [reSplitMarkers, h, if_true]
      rcases hrec : reSplitMarkers rest with _ | ⟨p, ps⟩
      · exact absurd hrec (reSplitMarkers_ne_nil rest)
      · rw [hrec] at ih
        cases ps with
        | nil => simp_all [joinSep]
        | cons q qs => simp_all [joinSep]
    · simp only [reSplitMarkers, h, Bool.false_eq_true, if_false]
      rcases hrec : reSplitMarkers rest with _ | ⟨p, ps⟩
      · exact absurd hrec (reSplitMarkers_ne_nil rest)
      · rw [hrec] at ih
        cases ps with
        | nil => simpa [joinSep] using congrArg (c :: ·) ih
        | cons q qs => simpa [joinSep] using congrArg (c :: ·) ih

theorem reSplitMarkers_map (f : Nat → Nat)
    (hf : ∀ x, isMarker (f x) = isMarker x) (s : Str) :
    reSplitMarkers (s.map f) = (reSplitMarkers s).map (List.map f) := by
  induction s with
  | nil => simp [reSplitMarkers]
  | cons c rest ih =>
    by_cases h : isMarker c
    · simp [reSplitMarkers, h, hf c, ih]
    · have h' : isMarker (f c) = false := by rw [hf c]; simpa using h
      simp only [List.map_cons, reSplitMarkers, h, h', Bool.false_eq_true,
        if_false, ih]
      rcases hrec : reSplitMarkers rest with _ | ⟨p, ps⟩
      · exact absurd hrec (reSplitMarkers_ne_nil rest)
      · simp

-- Acronyms, exception words, roman numerals.

/-- The fixed `ACRONYMS` set of the scripts. -/
def ACRONYMS : List Str :=
  ["HD", "2D", "3D", "4K", "VR", "AI", "API", "USB", "CPU", "GPU", "DVD",
   "CD", "RPG", "FPS", "MMO", "MMORPG", "LAN", "GUI", "NPC", "FFVII",
   "FFVIII", "FFIX", "FFX", "FFXII", "FX", "2K", "5K", "8K", "V1", "V2",
   "V3", "V4", "DOF"].map ofString

/-- The `lowercase_exceptions` set of the title caser. -/
def lowercase_exceptions : List Str :=
  ["a", "an", "and", "as", "at", "but", "by", "for", "from", "in", "nor",
   "of", "on", "or", "so", "the", "to", "with", "yet"].map ofString

/-- Consumes up to `n` copies of the character `c` from the front
(models a greedy `c{0,n}` regex piece). -/
def dropRep (c : Nat) : Nat → Str → Str
  | 0, s => s
  | _ + 1, [] => []
  | n + 1, a :: r => if a = c then dropRep c n r else a :: r

/-- Remainder after one group of the roman-numeral pattern, where the
group's shape is `(<one><ten>|<one><five>|<five>?<one>{0,3})` (for the
hundreds group `one`/`five`/`ten` are C/D/M): the subtractive forms are
tried first, then an optional `five` followed by up to three `one`s. -/
def groupRem (one five ten : Nat) (s : Str) : Str :=
  match s with
  | c0 :: c1 :: r =>
    if c0 = one ∧ c1 = ten then r
    else if c0 = one ∧ c1 = five then r
    else if c0 = five then dropRep one 3 (c1 :: r)
    else dropRep one 3 (c0 :: c1 :: r)
  | [c0] => if c0 = five then [] else dropRep one 3 [c0]
  | [] => []

/-- Remainder after the hundreds group `(CM|CD|D?C{0,3})`, on uppercase
input (C=67, D=68, M=77). -/
def hundredsRem (s : Str) : Str := groupRem 67 68 77 s

/-- Remainder after the tens group `(XC|XL|L?X{0,3})` (X=88, L=76, C=67). -/
def tensRem (s : Str) : Str := groupRem 88 76 67 s

/-- Remainder after the units group `(IX|IV|V?I{0,3})` (I=73, V=86, X=88). -/
def unitsRem (s : Str) : Str := groupRem 73 86 88 s

/-- Embeds `bool(ROMAN_NUMERAL_PATTERN.match(w))` for the pattern
`^M{0,4}(CM|CD|D?C{0,3})(XC|XL|L?X{0,3})(IX|IV|V?I{0,3})$` with
`re.IGNORECASE`: the input is uppercased (IGNORECASE), the four groups are
consumed in order, and the `$` anchor accepts the end of the string or a
single final newline (Python `$` semantics).  Note that every group can be
empty, so the empty string matches. -/
def is_roman_numeral (w : Str) : Bool :=
  let r := unitsRem (tensRem (hundredsRem (dropRep 77 4 (strUpper w))))
  r = [] ∨ r = [10]

-- The title caser (`title_case_preserve_numbers` and its helpers).

/-- One hyphen-piece of `capitalize_hyphenated`: empty stays empty, a single
character is uppercased, otherwise first char upper and the rest lower. -/
def capPiece : Str → Str
  | [] => []
  | [c] => [upperChar c]
  | c :: rest => upperChar c :: strLower rest

/-- Embeds `capitalize_hyphenated`: split on hyphens, capitalize each piece,
re-join with hyphens. -/
def capitalize_hyphenated (w : Str) : Str :=
  joinSep [45] ((splitOnC 45 w).map capPiece)

/-- One branch of `cap_special`'s loop over the separators `&`, `+`, `|`:
if `sep` occurs in `w` and every piece split on it is a roman numeral,
return the pieces uppercased and re-joined on `sep`. -/
def capSepTry (sep : Nat) (w : Str) : Option Str :=
  if sep ∈ w ∧ (splitOnC sep w).all (fun x => is_roman_numeral x) then
    some (joinSep [sep] ((splitOnC sep w).map strUpper))
  else none

/-- Embeds the nested `cap_special` helper: acronym lookup, roman-numeral
match, the `&`/`+`/`|` all-roman compound rule (tried in that order), then
hyphen-aware capitalization. -/
def cap_special (w : Str) : Str :=
  if strUpper w ∈ ACRONYMS then strUpper w
  else if is_roman_numeral w then strUpper w
  else
    match capSepTry 38 w with
    | some r => r
    | none =>
      match capSepTry 43 w with
      | some r => r
      | none =>
        match capSepTry 124 w with
        | some r => r
        | none => capitalize_hyphenated w

/-- The emission for a winning chunk:
`'-'.join(cap_special(sp) for sp in part.split('-'))`. -/
def capParts (p : Str) : Str :=
  joinSep [45] ((splitOnC 45 p).map cap_special)

/-- Processing of one piece of the separator-keeping split: a separator is
emitted unchanged and sets the force flag; a chunk wins (and is capitalized)
when forced, at the edges, or when its lowercase form is not an exception
word, and otherwise is lowercased. -/
def processPart (fc isF isL : Bool) (p : Str) : Str × Bool :=
  if isMarkerSeg p then (p, true)
  else
    let lp := strLower p
    if fc = true ∨ isF = true ∨ isL = true ∨ lp ∉ lowercase_exceptions then
      (capParts p, fc)
    else (lp, fc)

/-- Folds `processPart` over the pieces of one word, threading the force
flag and concatenating the outputs (`''.join(out_parts)`). -/
def processParts (isF isL : Bool) : Bool → List Str → Str × Bool
  | fc, [] => ([], fc)
  | fc, p :: ps =>
    let r := processPart fc isF isL p
    let rest := processParts isF isL r.2 ps
    (r.1 ++ rest.1, rest.2)

/-- Processing of one whitespace word: run the piece loop, then reset the
force flag unless the word contained a subtitle marker. -/
def processWord (fc isF isL : Bool) (w : Str) : Str × Bool :=
  let r := processParts isF isL fc (reSplitMarkers w)
  (r.1, if containsMarker w then r.2 else false)

/-- The word loop of `title_case_preserve_numbers`: `n` is the total word
count, `idx` the current index, threading the force flag. -/
def tcLoop (n : Nat) : Nat → Bool → List Str → List Str
  | _, _, [] => []
  | idx, fc, w :: ws =>
    let r := processWord fc (idx == 0) (idx == n - 1) w
    r.1 :: tcLoop n (idx + 1) r.2 ws

/-- The per-word re-capitalization of the final fix-up: split the processed
word on hyphens and uppercase acronym/roman pieces, capitalizing the rest.
Note this fix-up has no `&`/`+`/`|` compound branch. -/
def fixWord (w : Str) : Str :=
  joinSep [45] ((splitOnC 45 w).map (fun sp =>
    if strUpper sp ∈ ACRONYMS ∨ is_roman_numeral sp = true then strUpper sp
    else capitalize_hyphenated sp))

/-- Replaces the last element of the list by its fix-up
(`result[-1] = ...`). -/
def setLastFix : List Str → List Str
  | [] => []
  | [r] => [fixWord r]
  | r :: rs => r :: setLastFix rs

/-- The final fix-up: `result[0]` is re-capitalized first, then
`result[-1]` (for a one-word label the fix-up therefore runs twice on the
same slot, sequentially, exactly as the two Python assignments do). -/
def fixEdges : List Str → List Str
  | [] => []
  | r :: rs => setLastFix (fixWord r :: rs)

/-- Word-list form of the title caser. -/
def tcWords (ws : List Str) : List Str :=
  fixEdges (tcLoop ws.length 0 false ws)

/-- Embeds `title_case_preserve_numbers`. -/
def title_case_preserve_numbers (name : Str) : Str :=
  joinSp (tcWords (splitWs name))

-- The sanitizer (`sanitize_name`).

/-- Models one character of `unicodedata.normalize("NFKD", ·)` followed by
`encode("ascii", "ignore")`: ASCII code points are kept, Latin-1 accented
letters decompose to their base letter (the combining accent is dropped by
the ASCII encode), and remaining non-ASCII code points are dropped, exactly
as the ASCII encode drops non-decomposable characters such as typographic
quotes and dashes.  Model boundary: the table covers ASCII and Latin-1;
outside that range NFKD can still produce ASCII (`Ā` → `A`, `²` → `2`,
`ﬁ` → `fi`) where this map drops the character, so statements evaluating
the sanitizer keep their inputs within ASCII plus Latin-1. -/
def nfkdAscii (c : Nat) : Str :=
  if c < 128 then [c]
  else if 192 ≤ c ∧ c ≤ 197 then [65]
  else if c = 199 then [67]
  else if 200 ≤ c ∧ c ≤ 203 then [69]
  else if 204 ≤ c ∧ c ≤ 207 then [73]
  else if c = 209 then [78]
  else if 210 ≤ c ∧ c ≤ 214 then [79]
  else if 217 ≤ c ∧ c ≤ 220 then [85]
  else if c = 221 then [89]
  else if 224 ≤ c ∧ c ≤ 229 then [97]
  else if c = 231 then [99]
  else if 232 ≤ c ∧ c ≤ 235 then [101]
  else if 236 ≤ c ∧ c ≤ 239 then [105]
  else if c = 241 then [110]
  else if 242 ≤ c ∧ c ≤ 246 then [111]
  else if 249 ≤ c ∧ c ≤ 252 then [117]
  else if c = 253 ∨ c = 255 then [121]
  else []

/-- The quote-removal loop of `sanitize_name`: the tuple in the source is
the ASCII apostrophe (twice), the backtick and the double quote. -/
def removeQuotes (s : Str) : Str :=
  s.filter (fun c => ¬ (c = 39 ∨ c = 96 ∨ c = 34))

/-- Python `n.replace(" - ", " ")`: left-to-right, non-overlapping. -/
def replaceSpDashSp : Str → Str
  | 32 :: 45 :: 32 :: rest => 32 :: replaceSpDashSp rest
  | c :: rest => c :: replaceSpDashSp rest
  | [] => []

/-- ASCII `\w`.  Python `\w` also covers non-ASCII letters and digits; the
ASCII form is exact for the `Bros.` rule (`sanitize_name` applies it after
the ASCII cleanup) and for the concrete ASCII labels on which the claims
evaluate `strip_versions`. -/
def isWordChar (c : Nat) : Bool :=
  (48 ≤ c ∧ c ≤ 57) ∨ (65 ≤ c ∧ c ≤ 90) ∨ (97 ≤ c ∧ c ≤ 122) ∨ c = 95

/-- Embeds `re.sub(r'\bBros\.\s', 'Bros ', n, flags=re.IGNORECASE)`.
The flag `prev` records whether the preceding character is a word character
(for the `\b` boundary); scanning resumes after each replacement. -/
def brosSub (prev : Bool) : Str → Str
  | c1 :: c2 :: c3 :: c4 :: c5 :: c6 :: rest =>
    if prev = false ∧ (c1 = 66 ∨ c1 = 98) ∧ (c2 = 82 ∨ c2 = 114) ∧
        (c3 = 79 ∨ c3 = 111) ∧ (c4 = 83 ∨ c4 = 115) ∧ c5 = 46 ∧
        pyIsSpace c6 = true then
      66 :: 114 :: 111 :: 115 :: 32 :: brosSub false rest
    else c1 :: brosSub (isWordChar c1) (c2 :: c3 :: c4 :: c5 :: c6 :: rest)
  | c :: rest => c :: brosSub (isWordChar c) rest
  | [] => []

/-- Embeds `sanitize_name`: NFKD + ASCII-ignore, quote removal, `" - "`
replacement, the `Bros.` rule, then whitespace collapsing
(`" ".join(n.split()).strip()`). -/
def sanitize_name (name : Str) : Str :=
  joinSp (splitWs (brosSub false
    (replaceSpDashSp (removeQuotes ((name.map nfkdAscii).flatten)))))

/-- Embeds `clean_title`. -/
def clean_title (name : Str) : Str :=
  title_case_preserve_numbers (sanitize_name name)

-- Path helpers shared by the interpreter variants.

/-- ASCII digit: the explicit `[0-9]` classes of the scripts. -/
def isDigit (c : Nat) : Bool := 48 ≤ c ∧ c ≤ 57

/-- The code-point ranges of the Unicode decimal digits (category `Nd`):
in a Python `str` pattern the class `\d` matches exactly these characters,
not only the ASCII digits. -/
def ndRanges : List (Nat × Nat) :=
  [(48, 57), (1632, 1641), (1776, 1785), (1984, 1993), (2406, 2415),
   (2534, 2543), (2662, 2671), (2790, 2799), (2918, 2927), (3046, 3055),
   (3174, 3183), (3302, 3311), (3430, 3439), (3558, 3567), (3664, 3673),
   (3792, 3801), (3872, 3881), (4160, 4169), (4240, 4249), (6112, 6121),
   (6160, 6169), (6470, 6479), (6608, 6617), (6784, 6793), (6800, 6809),
   (6992, 7001), (7088, 7097), (7232, 7241), (7248, 7257), (42528, 42537),
   (43216, 43225), (43264, 43273), (43472, 43481), (43504, 43513),
   (43600, 43609), (44016, 44025), (65296, 65305), (66720, 66729),
   (68912, 68921), (69734, 69743), (69872, 69881), (69942, 69951),
   (70096, 70105), (70384, 70393), (70736, 70745), (70864, 70873),
   (71248, 71257), (71360, 71369), (71472, 71481), (71904, 71913),
   (72016, 72025), (72784, 72793), (73040, 73049), (73120, 73129),
   (92768, 92777), (92864, 92873), (93008, 93017), (120782, 120831),
   (123200, 123209), (123632, 123641), (125264, 125273), (130032, 130041)]

/-- The regex class `\d` of a Python `str` pattern: any Unicode decimal
digit (category `Nd`). -/
def isDigitRe (c : Nat) : Bool :=
  ndRanges.any (fun p => p.1 ≤ c ∧ c ≤ p.2)

/-- Scans for the `]` closing a lazy `\[.*?\]` match: returns the remainder
after the first `]`, failing at a newline (`.` does not match `\n`) or at
the end of the string. -/
def dropToClose : Str → Option Str
  | [] => none
  | c :: r => if c = 93 then some r else if c = 10 then none else dropToClose r

theorem dropToClose_length :
    ∀ s r, dropToClose s = some r → r.length < s.length := by
  intro s
  induction s with
  | nil => intro r h; simp [dropToClose] at h
  | cons c t ih =>
    intro r h
    by_cases h93 : c = 93
    · simp only [dropToClose, h93, if_pos rfl] at h
      cases h; simp
    · by_cases h10 : c = 10
      · simp [dropToClose, h93, h10] at h
      · simp only [dropToClose, h93, h10, if_false] at h
        exact Nat.lt_trans (ih r h) (by simp)

/-- Fuel-bounded scanner for `re.sub(r'\[.*?\]', '', s)`; every step
consumes at least one character, so fuel equal to the string length always
suffices (structural recursion on the fuel keeps the definition
kernel-reducible). -/
def stripBracketsF : Nat → Str → Str
  | 0, s => s
  | _ + 1, [] => []
  | fuel + 1, c :: rest =>
    if c = 91 then
      match dropToClose rest with
      | some r => stripBracketsF fuel r
      | none => c :: stripBracketsF fuel rest
    else c :: stripBracketsF fuel rest

/-- Embeds `re.sub(r'\[.*?\]', '', s)`: every lazily bracketed tag is
removed; an unclosed `[` is kept and scanning resumes at the next
character. -/
def stripBrackets (s : Str) : Str := stripBracketsF s.length s

/-- Embeds `bool(re.search(r'\[.*?\]', s))`. -/
def hasBracket : Str → Bool
  | [] => false
  | c :: r =>
    if c = 91 then (dropToClose r).isSome || hasBracket r else hasBracket r

/-- Splits at the first occurrence of the (nonempty) separator sequence:
returns the parts before and after it, or `none` when absent
(`sep in s` and the first two fields of `s.split(sep)`). -/
def splitFirstOnSeq (sep : Str) : Str → Option (Str × Str)
  | [] => none
  | c :: rest =>
    if sep.isPrefixOf (c :: rest) then some ([], (c :: rest).drop sep.length)
    else
      match splitFirstOnSeq sep rest with
      | some (a, b) => some (c :: a, b)
      | none => none

/-- Embeds KeatonTheBot's `transform_game_name` (and the identical inline
code of the StevensND variant): move a `", The"` suffix to the front using
the first two pieces of `split(', The')`, then replace every `" - "` with a
space. -/
def transform_game_name (g : Str) : Str :=
  let g1 :=
    match splitFirstOnSeq (ofString ", The") g with
    | none => g
    | some (a, b) =>
      ofString "The " ++ a ++
        (match splitFirstOnSeq (ofString ", The") b with
         | none => b
         | some (p1, _) => p1)
  replaceSpDashSp g1

/-- Embeds theboy181's `transform_game_name_raw`: the `", The"` move, then
removal of every colon, then the `" - "` replacement. -/
def transform_game_name_raw (g : Str) : Str :=
  let g1 :=
    match splitFirstOnSeq (ofString ", The") g with
    | none => g
    | some (a, b) =>
      ofString "The " ++ a ++
        (match splitFirstOnSeq (ofString ", The") b with
         | none => b
         | some (p1, _) => p1)
  replaceSpDashSp (g1.filter (fun c => ¬ c = 58))

/-- The country scan: first segment after the game folder containing a
bracketed tag, with the tags stripped and the result stripped of
whitespace. -/
def findCountry : List Str → Option Str
  | [] => none
  | p :: ps =>
    if hasBracket p then some (pyStrip (stripBrackets p)) else findCountry ps

/-- Embeds `bool(re.search(r' v\d+', s))`: a space, a lowercase `v` and a
decimal digit somewhere in `s` (`\d` is any Unicode decimal digit,
`isDigitRe`). -/
def hasSpaceVNum : Str → Bool
  | 32 :: 118 :: c :: rest =>
    if isDigitRe c then true else hasSpaceVNum (118 :: c :: rest)
  | _ :: rest => hasSpaceVNum rest
  | [] => false

/-- The second-to-last element of a list (`parts[-2]` when it exists). -/
def secondLast (l : List Str) : Option Str :=
  match l.reverse with
  | _ :: p :: _ => some p
  | _ => none

/-- Embeds the Title-ID scan `re.search(r'\[([0-9A-Fa-f]{16})\]', content)`:
hexadecimal digit test. -/
def isHexDigit (c : Nat) : Bool :=
  (48 ≤ c ∧ c ≤ 57) ∨ (65 ≤ c ∧ c ≤ 70) ∨ (97 ≤ c ∧ c ≤ 102)

/-- Tries the Title-ID pattern at the start of `s`: an opening bracket,
exactly 16 hexadecimal characters, and a closing bracket. -/
def titleAt (s : Str) : Option Str :=
  match s with
  | c :: rest =>
    if c = 91 ∧ (rest.take 16).length = 16 ∧ (rest.take 16).all isHexDigit ∧
        (rest.drop 16).head? = some 93 then some (rest.take 16)
    else none
  | [] => none

/-- The group-1 result of `re.search(r'\[([0-9A-Fa-f]{16})\]', content)`:
the leftmost bracketed run of exactly 16 hexadecimal characters. -/
def findTitleId : Str → Option Str
  | [] => none
  | c :: rest =>
    match titleAt (c :: rest) with
    | some t => some t
    | none => findTitleId rest

/-- Embeds the Python substring test `needle in haystack`. -/
def containsSeq (needle : Str) : Str → Bool
  | [] => needle.isPrefixOf []
  | c :: rest => needle.isPrefixOf (c :: rest) || containsSeq needle rest

namespace Keaton

/-- Models `os.path.basename(os.path.dirname(path))` given the final
segment of the root directory and the relative segments: the second-to-last
relative segment, or the root's own name when the content directory sits
directly below the root. -/
def aspectParent (rootLast : Str) (parts : List Str) : Str :=
  match secondLast parts with
  | some p => p
  | none => rootLast

/-- Embeds KeatonTheBot's `get_game_name_and_mod_name`.  The function takes
the final segment of `root_dir` (used only by the Aspect-Ratio branch's
`basename(dirname(path))`) and the relative path
`os.path.relpath(path, root_dir)`; `parts` is its split on `os.sep`.
Returns `none` exactly when the Python code raises `IndexError`
(`parts[-2]` on a single-segment path in the version-suffix branch). -/
def get_game_name_and_mod_name (rootLast rel : Str) :
    Option (Str × Str) :=
  let parts := splitOnC 47 rel
  let raw_game0 := pyStrip (stripBrackets parts.headI)
  let raw_game1 := transform_game_name raw_game0
  let country := findCountry parts.tail
  let raw_game :=
    match country with
    | some cty =>
      if cty ≠ [] then raw_game1 ++ ofString " (" ++ cty ++ [41]
      else raw_game1
    | none => raw_game1
  let game_name := clean_title raw_game
  if containsSeq (ofString "Aspect Ratio") rel then
    let aspect := (aspectParent rootLast parts).map
      (fun c => if c = 39 then 46 else c)
    some (game_name, clean_title (ofString "Aspect Ratio " ++ aspect))
  else
    let last_part := parts.getLastD []
    if hasSpaceVNum last_part then
      match secondLast parts with
      | none => none
      | some p => some (game_name, clean_title (p ++ [32] ++ last_part))
    else if 2 ≤ parts.length then
      some (game_name, clean_title ((secondLast parts).getD []))
    else
      some (game_name, clean_title (ofString "Mods"))

end Keaton

namespace StevensND

/-- Fuel-bounded loop consuming maximal `(\.[0-9]+)` groups; each step
consumes at least one character, so fuel equal to the string length always
suffices. -/
def dotsLoopF : Nat → Str → Str
  | 0, s => s
  | fuel + 1, s =>
    match s with
    | 46 :: rest =>
      let ds := rest.takeWhile (fun c => isDigit c)
      if ds.length = 0 then 46 :: rest else dotsLoopF fuel (rest.drop ds.length)
    | s => s

/-- Consumes a maximal run of `(\.[0-9]+)` groups (the greedy
`(?:\.[0-9]+)*`). -/
def dotsLoop (s : Str) : Str := dotsLoopF s.length s

/-- Embeds `re.match(r'^([0-9]+(?:\.[0-9]+)*)\s*(.*)$', s)`, returning the
stripped group 2 on success: a leading digit run, greedy dotted-digit
groups, then whitespace; the match fails only when the rest contains an
interior newline (`.` cannot cross `\n` and `$` accepts at most one final
newline). -/
def numPrefixMatch (s : Str) : Option Str :=
  let ds := s.takeWhile (fun c => isDigit c)
  if ds.length = 0 then none
  else
    let u := dotsLoop (s.drop ds.length)
    let t := u.dropWhile (fun c => pyIsSpace c)
    if ¬ t.contains 10 ∨ (t.getLastD 0 = 10 ∧ ¬ t.dropLast.contains 10) then
      some (pyStrip t)
    else none

/-- Remainder check after a version number: `\b` holds at the end of the
string or before a non-word character. -/
def boundaryAfter : Str → Bool
  | [] => true
  | c :: _ => ¬ isWordChar c

/-- The digits-and-dots core of `\d+(?:\.\d+){1,2}\b`, returning the number
of characters matched: a digit run, then one dotted-digit group, then
optionally (greedily, with fallback when the trailing `\b` fails) a second
one. -/
def verCore (t : Str) : Option Nat :=
  let ds := t.takeWhile (fun c => isDigitRe c)
  if ds.length = 0 then none
  else
    match t.drop ds.length with
    | 46 :: r1 =>
      let ds1 := r1.takeWhile (fun c => isDigitRe c)
      if ds1.length = 0 then none
      else
        let k1 := ds.length + 1 + ds1.length
        match r1.drop ds1.length with
        | 46 :: r3 =>
          let ds2 := r3.takeWhile (fun c => isDigitRe c)
          if ds2.length = 0 then
            if boundaryAfter (r1.drop ds1.length) then some k1 else none
          else
            if boundaryAfter (r3.drop ds2.length) then
              some (k1 + 1 + ds2.length)
            else if boundaryAfter (r1.drop ds1.length) then some k1
            else none
        | r2 => if boundaryAfter r2 then some k1 else none
    | _ => none

/-- Tries `(v?\d+(?:\.\d+){1,2})\b` at the current position (already known
to be at a `\b` boundary), returning the matched length; `v` is only
consumed when a digit follows, mirroring the engine's backtracking. -/
def matchVer : Str → Option Nat
  | [] => none
  | c :: rest =>
    if c = 118 ∨ c = 86 then
      match rest with
      | d :: _ => if isDigitRe d then (verCore rest).map (· + 1) else none
      | [] => none
    else if isDigitRe c then verCore (c :: rest) else none

/-- The scanning loop of
`re.sub(r'\b(v?\d+(?:\.\d+){1,2})\b', '', text, flags=re.IGNORECASE)`:
`prev` records whether the previous character is a word character; a match
is attempted exactly at `\b` boundaries and the matched text is removed
(a match always ends in a digit, so the flag resumes as `true`). -/
def stripVerScanF : Nat → Bool → Str → Str
  | 0, _, s => s
  | _ + 1, _, [] => []
  | fuel + 1, prev, c :: rest =>
    if prev = false then
      match matchVer (c :: rest) with
      | some n => stripVerScanF fuel true (rest.drop (n - 1))
      | none => c :: stripVerScanF fuel (isWordChar c) rest
    else c :: stripVerScanF fuel (isWordChar c) rest

/-- The scanning wrapper: every match consumes at least one character, so
fuel equal to the string length always suffices. -/
def stripVerScan (prev : Bool) (s : Str) : Str := stripVerScanF s.length prev s

/-- Embeds StevensND's `strip_versions`. -/
def strip_versions (text : Str) : Str := pyStrip (stripVerScan false text)

/-- Embeds `re.match(r'^(.*)\s+v[0-9.]+$', s, re.IGNORECASE)` and the
subsequent `group(1).strip()`: strips a trailing whitespace-v-digits/dots
suffix.  Returns `s` unchanged when the pattern does not match; the `$`
anchor tolerates one final newline, and group 1 (`.*`) cannot contain a
newline. -/
def stripTrailingV (s : Str) : Str :=
  let t := if s.getLastD 0 = 10 then s.dropLast else s
  let r := t.reverse
  let ds := r.takeWhile (fun c => isDigit c ∨ c = 46)
  if ds.length = 0 then s
  else
    match r.drop ds.length with
    | c :: r2 =>
      if c = 118 ∨ c = 86 then
        let sp := r2.takeWhile (fun c => pyIsSpace c)
        if sp.length = 0 then s
        else
          let g := (r2.drop sp.length).reverse
          if g.contains 10 then s else pyStrip g
      else s
    | [] => s

/-- Embeds StevensND's `get_game_name_and_mod_name`. -/
def get_game_name_and_mod_name (rel : Str) : Str × Str :=
  let parts := splitOnC 47 rel
  let raw_game0 := pyStrip (stripBrackets parts.headI)
  let raw_game1 := transform_game_name raw_game0
  let country := findCountry parts.tail
  let raw_game :=
    match country with
    | some cty =>
      if cty ≠ [] then raw_game1 ++ ofString " (" ++ cty ++ [41]
      else raw_game1
    | none => raw_game1
  let game_name := clean_title raw_game
  let sub_folders0 :=
    (parts.tail.map (fun p => pyStrip (stripBrackets p))).filter
      (fun sf => ¬ strLower sf = ofString "pchtxt")
  if containsSeq (ofString "Aspect Ratio") rel then
    (game_name, clean_title (ofString "Aspect Ratio " ++ parts.getLastD []))
  else
    let sf1 :=
      match sub_folders0 with
      | [] => []
      | s0 :: rest =>
        match numPrefixMatch s0 with
        | some trailing => if trailing ≠ [] then trailing :: rest else rest
        | none => s0 :: rest
    let sf2 :=
      match country, sf1 with
      | some cty, s0 :: rest =>
        if cty ≠ [] ∧ (strLower cty).isPrefixOf (strLower s0) then
          pyLstrip (s0.drop cty.length) :: rest
        else s0 :: rest
      | _, _ => sf1
    let raw_mod0 :=
      match sf2 with
      | [] => ofString "Port Mods"
      | _ => pyStrip (joinSep [32] sf2)
    let raw_mod := stripTrailingV (strip_versions raw_mod0)
    let mod_name :=
      if raw_mod ≠ [] then clean_title raw_mod else ofString "Port Mods"
    (game_name, mod_name)

end StevensND

namespace Theboy181

/-- Embeds `raw_mod.replace("21-9", "21.9")`. -/
def replace219 : Str → Str
  | 50 :: 49 :: 45 :: 57 :: rest => 50 :: 49 :: 46 :: 57 :: replace219 rest
  | c :: rest => c :: replace219 rest
  | [] => []

/-- Embeds theboy181's `get_game_name_and_mod_name`: the version-suffix
branch guards `parts[-2]` with length tests, so unlike the KeatonTheBot
variant it is total. -/
def get_game_name_and_mod_name (rel : Str) : Str × Str :=
  let parts := splitOnC 47 rel
  let raw_game0 := pyStrip (stripBrackets parts.headI)
  let raw_game1 := transform_game_name_raw raw_game0
  let country := findCountry parts.tail
  let raw_game :=
    match country with
    | some cty =>
      if cty ≠ [] then raw_game1 ++ ofString " (" ++ cty ++ [41]
      else raw_game1
    | none => raw_game1
  let game_name := clean_title raw_game
  let raw_mod0 :=
    if containsSeq (ofString "Aspect Ratio") rel then
      ofString "Aspect Ratio " ++ parts.getLastD []
    else
      let last_folder := parts.getLastD []
      if hasSpaceVNum last_folder then
        let parent_folder :=
          if 2 < parts.length then (secondLast parts).getD [] else []
        pyStrip (parent_folder ++ [32] ++ last_folder)
      else if 1 < parts.length then (secondLast parts).getD [] else []
  let raw_mod1 := pyStrip raw_mod0
  let raw_mod2 := raw_mod1.map (fun c => if c = 39 ∨ c = 96 then 46 else c)
  let raw_mod3 := (replace219 raw_mod2).filter (fun c => ¬ c = 58)
  let raw_mod :=
    if raw_mod3 = ofString "Trailblazers" then ofString "4K" else raw_mod3
  let mod_name :=
    if raw_mod ≠ [] then clean_title raw_mod else ofString "Mods"
  (game_name, mod_name)

end Theboy181

namespace Fl4sh9174

/-- Collects the group of a lazy `\[(.*?)\]` match: the characters up to
the first `]`, failing at a newline or at the end. -/
def takeToClose : Str → Option Str
  | [] => none
  | c :: r =>
    if c = 93 then some []
    else if c = 10 then none
    else (takeToClose r).map (fun g => c :: g)

/-- Embeds `re.search(r'\[(.*?)\]', s)` returning group 1 of the leftmost
match. -/
def bracketGroup : Str → Option Str
  | [] => none
  | c :: r =>
    if c = 91 then
      match takeToClose r with
      | some g => some g
      | none => bracketGroup r
    else bracketGroup r

/-- Embeds `re.sub(r' v[0-9.]+$', '', s)`: removes a trailing
space-`v`-digits/dots suffix (the `$` anchor tolerates one final
newline). -/
def dropTrailSpV (s : Str) : Str :=
  let hasNl := s.getLastD 0 = 10
  let t := if hasNl then s.dropLast else s
  let r := t.reverse
  let ds := r.takeWhile (fun c => isDigit c ∨ c = 46)
  if ds.length = 0 then s
  else
    match r.drop ds.length with
    | 118 :: 32 :: rest => rest.reverse ++ (if hasNl then [10] else [])
    | _ => s

/-- Embeds the mod-name derivation inlined in Fl4sh9174's
`create_formatted_structure`: the first bracketed tag of the relative path
with any trailing `" v<digits>"` stripped, falling back to
`"Ultrawide Mods"` when no bracketed tag exists. -/
def mod_name_of_relative (rel : Str) : Str :=
  match bracketGroup rel with
  | none => ofString "Ultrawide Mods"
  | some raw => clean_title (pyStrip (dropTrailSpV raw))

end Fl4sh9174

/-! The `Uni` namespace re-embeds the title caser with Python's full case
mappings, under which `str.upper` / `str.lower` are string-valued on a
character: the mappings can move a character out of its block and even
expand one character to several (`ß` uppercases to `SS`, the ligature `ﬁ`
to `FI`, and `İ` lowercases to `i` plus a combining dot).  The per-character
tables below are exact on the code points below 256 and on `İ`, `Ÿ`, `ﬁ`
and `ﬂ`, and the identity elsewhere.  Everything else in the pipeline
(whitespace splitting, the marker split, the acronym and exception sets,
and the roman-numeral matcher, whose `re.IGNORECASE` uses per-character
simple folding rather than the full mappings) is shared with the main
embedding. -/

namespace Uni

/-- Python `str.upper` of one character under the full case mappings
(string-valued: `ß` → `"SS"`, `ﬁ` → `"FI"`, `µ` → `"Μ"`). -/
def upperChar (c : Nat) : Str :=
  if 97 ≤ c ∧ c ≤ 122 then [c - 32]
  else if c = 181 then [924]
  else if c = 223 then [83, 83]
  else if (224 ≤ c ∧ c ≤ 254) ∧ ¬ c = 247 then [c - 32]
  else if c = 255 then [376]
  else if c = 64257 then [70, 73]
  else if c = 64258 then [70, 76]
  else [c]

/-- Python `str.lower` of one character under the full case mappings
(string-valued: `İ` → `"i"` plus U+0307, `Ÿ` → `"ÿ"`). -/
def lowerChar (c : Nat) : Str :=
  if 65 ≤ c ∧ c ≤ 90 then [c + 32]
  else if (192 ≤ c ∧ c ≤ 222) ∧ ¬ c = 215 then [c + 32]
  else if c = 304 then [105, 775]
  else if c = 376 then [255]
  else [c]

/-- Python `str.lower` on a whole string, full case mappings. -/
def strLower (s : Str) : Str := s.flatMap lowerChar

/-- Python `str.upper` on a whole string, full case mappings. -/
def strUpper (s : Str) : Str := s.flatMap upperChar

/-- One hyphen-piece of `capitalize_hyphenated` under the full mappings:
empty stays empty, a single character is `p.upper()`, otherwise
`p[0].upper() + p[1:].lower()`. -/
def capPiece : Str → Str
  | [] => []
  | [c] => upperChar c
  | c :: rest => upperChar c ++ strLower rest

/-- `capitalize_hyphenated` under the full mappings. -/
def capitalize_hyphenated (w : Str) : Str :=
  joinSep [45] ((splitOnC 45 w).map capPiece)

/-- One branch of `cap_special`'s separator loop under the full mappings
(the roman-numeral test itself is the shared `is_roman_numeral`:
`re.IGNORECASE` folds characters one at a time). -/
def capSepTry (sep : Nat) (w : Str) : Option Str :=
  if sep ∈ w ∧ (splitOnC sep w).all (fun x => is_roman_numeral x) then
    some (joinSep [sep] ((splitOnC sep w).map strUpper))
  else none

/-- The nested `cap_special` helper under the full mappings. -/
def cap_special (w : Str) : Str :=
  if strUpper w ∈ ACRONYMS then strUpper w
  else if is_roman_numeral w then strUpper w
  else
    match capSepTry 38 w with
    | some r => r
    | none =>
      match capSepTry 43 w with
      | some r => r
      | none =>
        match capSepTry 124 w with
        | some r => r
        | none => capitalize_hyphenated w

/-- `'-'.join(cap_special(sp) for sp in part.split('-'))` under the full
mappings. -/
def capParts (p : Str) : Str :=
  joinSep [45] ((splitOnC 45 p).map cap_special)

/-- Processing of one piece of the separator-keeping split, full
mappings. -/
def processPart (fc isF isL : Bool) (p : Str) : Str × Bool :=
  if isMarkerSeg p then (p, true)
  else
    let lp := strLower p
    if fc = true ∨ isF = true ∨ isL = true ∨ lp ∉ lowercase_exceptions then
      (capParts p, fc)
    else (lp, fc)

/-- Folds `processPart` over the pieces of one word, full mappings. -/
def processParts (isF isL : Bool) : Bool → List Str → Str × Bool
  | fc, [] => ([], fc)
  | fc, p :: ps =>
    let r := processPart fc isF isL p
    let rest := processParts isF isL r.2 ps
    (r.1 ++ rest.1, rest.2)

/-- Processing of one whitespace word, full mappings. -/
def processWord (fc isF isL : Bool) (w : Str) : Str × Bool :=
  let r := processParts isF isL fc (reSplitMarkers w)
  (r.1, if containsMarker w then r.2 else false)

/-- The word loop of `title_case_preserve_numbers`, full mappings. -/
def tcLoop (n : Nat) : Nat → Bool → List Str → List Str
  | _, _, [] => []
  | idx, fc, w :: ws =>
    let r := processWord fc (idx == 0) (idx == n - 1) w
    r.1 :: tcLoop n (idx + 1) r.2 ws

/-- The per-word re-capitalization of the final fix-up, full mappings. -/
def fixWord (w : Str) : Str :=
  joinSep [45] ((splitOnC 45 w).map (fun sp =>
    if strUpper sp ∈ ACRONYMS ∨ is_roman_numeral sp = true then strUpper sp
    else capitalize_hyphenated sp))

/-- `result[-1] = ...` of the final fix-up, full mappings. -/
def setLastFix : List Str → List Str
  | [] => []
  | [r] => [fixWord r]
  | r :: rs => r :: setLastFix rs

/-- The final fix-up (`result[0]` first, then `result[-1]`), full
mappings. -/
def fixEdges : List Str → List Str
  | [] => []
  | r :: rs => setLastFix (fixWord r :: rs)

/-- Word-list form of the title caser, full mappings. -/
def tcWords (ws : List Str) : List Str :=
  fixEdges (tcLoop ws.length 0 false ws)

/-- `title_case_preserve_numbers` under Python's full case mappings. -/
def title_case_preserve_numbers (name : Str) : Str :=
  joinSp (tcWords (splitWs name))

end Uni

-- Title-ID scan lemmas (C6).

theorem titleAt_sound {s t : Str} (h : titleAt s = some t) :
    ∃ q, s = 91 :: (t ++ 93 :: q) ∧ t.length = 16 ∧ t.all isHexDigit = true := by
  unfold titleAt at h
  rcases s with _ | ⟨c, rest⟩
  · simp at h
  · simp only at h
    split_ifs at h with hcond
    · cases h
      obtain ⟨hc, hlen, hhex, hhead⟩ := hcond
      subst hc
      refine ⟨rest.drop 17, ?_, hlen, hhex⟩
      have hsplit : rest = rest.take 16 ++ rest.drop 16 :=
        (List.take_append_drop 16 rest).symm
      rcases hd : rest.drop 16 with _ | ⟨x, xs⟩
      · rw [hd] at hhead; simp at hhead
      · rw [hd] at hhead
        simp only [List.head?] at hhead
        have hx : x = 93 := by injection hhead
        subst hx
        have hxs : xs = rest.drop 17 := by
          have h17 : rest.drop 17 = (rest.drop 16).drop 1 := by
            rw [List.drop_drop]
          rw [h17, hd]; simp
        rw [← hxs]
        exact congrArg (91 :: ·) (by rw [← hd]; exact hsplit)

theorem titleAt_complete {t q : Str} (hlen : t.length = 16)
    (hhex : t.all isHexDigit = true) :
    titleAt (91 :: (t ++ 93 :: q)) = some t := by
  unfold titleAt
  have h1 : (t ++ 93 :: q).take 16 = t := List.take_left' hlen
  have h2 : (t ++ 93 :: q).drop 16 = 93 :: q := List.drop_left' hlen
  simp only [h1, h2, hlen, hhex, List.head?, and_true, true_and]
  simp

theorem findTitleId_sound {c t : Str} (h : findTitleId c = some t) :
    ∃ p q, c = p ++ 91 :: (t ++ 93 :: q) ∧ t.length = 16 ∧
      t.all isHexDigit = true ∧
      ∀ p' t' q', c = p' ++ 91 :: (t' ++ 93 :: q') → t'.length = 16 →
        t'.all isHexDigit = true → p.length ≤ p'.length := by
  induction c with
  | nil => simp [findTitleId] at h
  | cons a s ih =>
    rw [findTitleId] at h
    rcases hat : titleAt (a :: s) with _ | t0
    · rw [hat] at h
      simp only at h
      obtain ⟨p, q, hdec, hlen, hhex, hmin⟩ := ih h
      refine ⟨a :: p, q, by rw [List.cons_append, hdec], hlen, hhex, ?_⟩
      intro p' t' q' hdec' hlen' hhex'
      rcases p' with _ | ⟨b, p''⟩
      · exfalso
        simp only [List.nil_append] at hdec'
        rw [hdec'] at hat
        rw [titleAt_complete hlen' hhex'] at hat
        cases hat
      · have hb : b = a := by
          rw [List.cons_append] at hdec'
          injection hdec' with h1 _
          omega
        have hs : s = p'' ++ 91 :: (t' ++ 93 :: q') := by
          rw [List.cons_append] at hdec'
          injection hdec'
        simpa using Nat.succ_le_succ (hmin p'' t' q' hs hlen' hhex')
    · rw [hat] at h
      simp only at h
      cases h
      obtain ⟨q, hdec, hlen, hhex⟩ := titleAt_sound hat
      exact ⟨[], q, by simpa using hdec, hlen, hhex, fun p' t' q' _ _ _ => Nat.zero_le _⟩

theorem findTitleId_complete {c p t q : Str}
    (hdec : c = p ++ 91 :: (t ++ 93 :: q)) (hlen : t.length = 16)
    (hhex : t.all isHexDigit = true) : ∃ u, findTitleId c = some u := by
  subst hdec
  induction p with
  | nil =>
    refine ⟨t, ?_⟩
    rw [List.nil_append, findTitleId, titleAt_complete hlen hhex]
  | cons b p' ih =>
    rw [List.cons_append, findTitleId]
    rcases hat : titleAt (b :: (p' ++ 91 :: (t ++ 93 :: q))) with _ | t0
    · exact ih
    · exact ⟨t0, rfl⟩

-- Roman-numeral grammar lemmas (C8).

theorem dropRep_zero (c : Nat) (s : Str) : dropRep c 0 s = s := rfl

/-- C6: for every content-file text, the Title-ID scan returns the first
(leftmost) substring of exactly 16 hexadecimal characters enclosed in
square brackets — the result is such a bracketed run and no strictly
earlier position carries one; when no such substring exists the scan
returns nothing; and bracketed tokens of 15 or 17 hexadecimal characters
never match. -/
theorem C6_titleId_scan :
    (∀ c t, findTitleId c = some t →
      ∃ p q, c = p ++ 91 :: (t ++ 93 :: q) ∧ t.length = 16 ∧
        t.all isHexDigit = true ∧
        ∀ p' t' q', c = p' ++ 91 :: (t' ++ 93 :: q') → t'.length = 16 →
          t'.all isHexDigit = true → p.length ≤ p'.length) ∧
    (∀ c, findTitleId c = none ↔
      ¬ ∃ p t q, c = p ++ 91 :: (t ++ 93 :: q) ∧ t.length = 16 ∧
        t.all isHexDigit = true) ∧
    findTitleId (ofString "[AAAAAAAAAAAAAAA]") = none ∧
    findTitleId (ofString "[AAAAAAAAAAAAAAAAA]") = none := by
  refine ⟨fun c t h => findTitleId_sound h,
    fun c => ⟨fun hnone => ?_, fun hno => ?_⟩, by decide, by decide⟩
  · rintro ⟨p, t, q, hdec, hlen, hhex⟩
    obtain ⟨u, hu⟩ := findTitleId_complete hdec hlen hhex
    rw [hnone] at hu
    cases hu
  · rcases hf : findTitleId c with _ | t
    · rfl
    · exfalso
      obtain ⟨p, q, hdec, hlen, hhex, _⟩ := findTitleId_sound hf
      exact hno ⟨p, t, q, hdec, hlen, hhex⟩

/-- Witness for C6 at a concrete content text. -/
theorem C6_titleId_scan_witness :
    ∃ p q, ofString "z[0123456789abcDEF]y" =
      p ++ 91 :: (ofString "0123456789abcDEF" ++ 93 :: q) ∧
      (ofString "0123456789abcDEF").length = 16 ∧
      (ofString "0123456789abcDEF").all isHexDigit = true ∧
      ∀ p' t' q', ofString "z[0123456789abcDEF]y" =
        p' ++ 91 :: (t' ++ 93 :: q') → t'.length = 16 →
        t'.all isHexDigit = true → p.length ≤ p'.length :=
  C6_titleId_scan.1 (ofString "z[0123456789abcDEF]y")
    (ofString "0123456789abcDEF") (by decide)

/-- C9: the sanitizer maps the two specification examples as stated —
accents are reduced to base ASCII letters, apostrophes are deleted, the
colon is kept, the `"Bros. "` rule fires before whitespace, and whitespace
runs collapse to single spaces. -/
theorem C9_sanitizer_examples :
    sanitize_name (ofString "Pokémon: Let" ++ [39] ++ ofString "s Go!") =
      ofString "Pokemon: Lets Go!" ∧
    sanitize_name (ofString "Mario Bros.  Deluxe") =
      ofString "Mario Bros Deluxe" := by
  constructor <;> decide

-- Lower-preservation of the title caser: every stage only changes the case
-- of characters (supports C10 and C2).

theorem joinSep_nil_flatten (ps : List Str) : joinSep [] ps = ps.flatten := by
  induction ps with
  | nil => simp [joinSep]
  | cons p ps ih =>
    cases ps with
    | nil => simp [joinSep]
    | cons q qs => simp only [joinSep, List.flatten_cons, ih]; simp

theorem lowerChar_of_marker {m : Nat} (h : isMarker m = true) :
    lowerChar m = m := by
  unfold isMarker at h
  unfold lowerChar
  split_ifs with hr
  · exfalso
    simp only [decide_eq_true_eq] at h
    omega
  · rfl

theorem capPiece_cons_cons (c d : Nat) (rest : Str) :
    capPiece (c :: d :: rest) = upperChar c :: strLower (d :: rest) := rfl

theorem strLower_capPiece (p : Str) : strLower (capPiece p) = strLower p := by
  rcases p with _ | ⟨c, _ | ⟨d, rest⟩⟩
  · rfl
  · show strLower [upperChar c] = strLower [c]
    simp [strLower, lowerChar_upperChar]
  · rw [capPiece_cons_cons]
    show lowerChar (upperChar c) :: strLower (strLower (d :: rest)) = _
    rw [lowerChar_upperChar, strLower_strLower]
    rfl

theorem lowerChar_eq_45_iff (c : Nat) : lowerChar c = 45 ↔ c = 45 := by
  unfold lowerChar; split_ifs <;> omega

theorem strLower_joinSep_single (sep : Nat) (hsep : lowerChar sep = sep)
    (ps : List Str) :
    strLower (joinSep [sep] ps) = joinSep [sep] (ps.map strLower) := by
  have := joinSep_map lowerChar [sep] ps
  simpa [strLower, hsep] using this

theorem strLower_capitalize_hyphenated (w : Str) :
    strLower (capitalize_hyphenated w) = strLower w := by
  unfold capitalize_hyphenated
  rw [strLower_joinSep_single 45 (by decide)]
  rw [List.map_map]
  have hmap : (splitOnC 45 w).map (strLower ∘ capPiece) =
      (splitOnC 45 w).map strLower :=
    List.map_congr_left (fun p _ => strLower_capPiece p)
  rw [hmap, ← strLower_joinSep_single 45 (by decide), joinSep_splitOnC]

theorem strLower_capSepTry {sep : Nat} (hsep : lowerChar sep = sep) {w r : Str}
    (h : capSepTry sep w = some r) : strLower r = strLower w := by
  unfold capSepTry at h
  split_ifs at h with hc
  · cases h
    rw [strLower_joinSep_single sep hsep, List.map_map]
    have hmap : (splitOnC sep w).map (strLower ∘ strUpper) =
        (splitOnC sep w).map strLower :=
      List.map_congr_left (fun p _ => strLower_strUpper p)
    rw [hmap, ← strLower_joinSep_single sep hsep, joinSep_splitOnC]

theorem strLower_cap_special (w : Str) :
    strLower (cap_special w) = strLower w := by
  unfold cap_special
  split_ifs with h1 h2
  · exact strLower_strUpper w
  · exact strLower_strUpper w
  · rcases h38 : capSepTry 38 w with _ | r38
    · rcases h43 : capSepTry 43 w with _ | r43
      · rcases h124 : capSepTry 124 w with _ | r124
        · simp only [h38, h43, h124]
          exact strLower_capitalize_hyphenated w
        · simp only [h38, h43, h124]
          exact strLower_capSepTry (by decide) h124
      · simp only [h38, h43]
        exact strLower_capSepTry (by decide) h43
    · simp only [h38]
      exact strLower_capSepTry (by decide) h38

theorem strLower_capParts (p : Str) : strLower (capParts p) = strLower p := by
  unfold capParts
  rw [strLower_joinSep_single 45 (by decide), List.map_map]
  have hmap : (splitOnC 45 p).map (strLower ∘ cap_special) =
      (splitOnC 45 p).map strLower :=
    List.map_congr_left (fun q _ => strLower_cap_special q)
  rw [hmap, ← strLower_joinSep_single 45 (by decide), joinSep_splitOnC]

theorem strLower_fixWord (w : Str) : strLower (fixWord w) = strLower w := by
  unfold fixWord
  rw [strLower_joinSep_single 45 (by decide), List.map_map]
  have hmap : ∀ sp ∈ splitOnC 45 w,
      (strLower ∘ fun sp =>
        if strUpper sp ∈ ACRONYMS ∨ is_roman_numeral sp = true then strUpper sp
        else capitalize_hyphenated sp) sp = strLower sp := by
    intro sp _
    simp only [Function.comp]
    split_ifs
    · exact strLower_strUpper sp
    · exact strLower_capitalize_hyphenated sp
  rw [List.map_congr_left hmap, ← strLower_joinSep_single 45 (by decide),
    joinSep_splitOnC]

theorem processPart_eq (fc isF isL : Bool) (p : Str) :
    processPart fc isF isL p =
      if isMarkerSeg p = true then (p, true)
      else if fc = true ∨ isF = true ∨ isL = true ∨
          strLower p ∉ lowercase_exceptions then (capParts p, fc)
      else (strLower p, fc) := rfl

theorem strLower_processPart (fc isF isL : Bool) (p : Str) :
    strLower (processPart fc isF isL p).1 = strLower p := by
  rw [processPart_eq]
  split_ifs with h1 h2
  · rfl
  · exact strLower_capParts p
  · exact strLower_strLower p

theorem strLower_processParts (isF isL : Bool) :
    ∀ ps fc, strLower (processParts isF isL fc ps).1 =
      strLower ps.flatten := by
  intro ps
  induction ps with
  | nil => intro fc; rfl
  | cons p ps ih =>
    intro fc
    have happ : ∀ a b : Str, strLower (a ++ b) = strLower a ++ strLower b :=
      fun a b => List.map_append lowerChar a b
    show strLower ((processPart fc isF isL p).1 ++
      (processParts isF isL (processPart fc isF isL p).2 ps).1) = _
    rw [happ, strLower_processPart, ih, List.flatten_cons, happ]

theorem strLower_processWord (fc isF isL : Bool) (w : Str) :
    strLower (processWord fc isF isL w).1 = strLower w := by
  unfold processWord
  show strLower (processParts isF isL fc (reSplitMarkers w)).1 = _
  rw [strLower_processParts, ← joinSep_nil_flatten, reSplitMarkers_join w]

/-- Elementwise lower-preservation through the word loop. -/
theorem tcLoop_lower (n : Nat) :
    ∀ ws idx fc, List.Forall₂ (fun r w => strLower r = strLower w)
      (tcLoop n idx fc ws) ws := by
  intro ws
  induction ws with
  | nil => intro idx fc; exact List.Forall₂.nil
  | cons w ws ih =>
    intro idx fc
    exact List.Forall₂.cons (strLower_processWord _ _ _ w) (ih _ _)

theorem setLastFix_lower :
    ∀ rs ws, List.Forall₂ (fun r w => strLower r = strLower w) rs ws →
      List.Forall₂ (fun r w => strLower r = strLower w) (setLastFix rs) ws := by
  intro rs
  induction rs with
  | nil => intro ws h; simpa [setLastFix] using h
  | cons r rs ih =>
    intro ws h
    rcases h with _ | ⟨hrw, hrest⟩
    cases rs with
    | nil =>
      rcases hrest with _ | _
      exact List.Forall₂.cons (by rw [strLower_fixWord]; exact hrw)
        List.Forall₂.nil
    | cons r2 rs2 =>
      show List.Forall₂ _ (r :: setLastFix (r2 :: rs2)) _
      exact List.Forall₂.cons hrw (ih _ hrest)

theorem fixEdges_lower {rs ws : List Str}
    (h : List.Forall₂ (fun r w => strLower r = strLower w) rs ws) :
    List.Forall₂ (fun r w => strLower r = strLower w) (fixEdges rs) ws := by
  rcases h with _ | ⟨hrw, hrest⟩
  · exact List.Forall₂.nil
  · exact setLastFix_lower _ _
      (List.Forall₂.cons (by rw [strLower_fixWord]; assumption) hrest)

/-- Elementwise lower-preservation of the whole word-list transformation. -/
theorem tcWords_lower (ws : List Str) :
    List.Forall₂ (fun r w => strLower r = strLower w) (tcWords ws) ws :=
  fixEdges_lower (tcLoop_lower ws.length ws 0 false)

-- Case-insensitivity of the title caser in its input (supports C2).

theorem isMarker_lowerChar (c : Nat) : isMarker (lowerChar c) = isMarker c := by
  unfold isMarker lowerChar
  split_ifs with h
  · simp only [decide_eq_decide]; omega
  · rfl

theorem reSplitMarkers_strLower (w : Str) :
    reSplitMarkers (strLower w) = (reSplitMarkers w).map strLower :=
  reSplitMarkers_map lowerChar isMarker_lowerChar w

theorem splitOnC_strLower_45 (w : Str) :
    splitOnC 45 (strLower w) = (splitOnC 45 w).map strLower :=
  splitOnC_map 45 lowerChar lowerChar_eq_45_iff w

theorem capPiece_strLower (p : Str) : capPiece (strLower p) = capPiece p := by
  rcases p with _ | ⟨c, _ | ⟨d, rest⟩⟩
  · rfl
  · show [upperChar (lowerChar c)] = [upperChar c]
    rw [upperChar_lowerChar]
  · show upperChar (lowerChar c) :: strLower (strLower (d :: rest)) =
      upperChar c :: strLower (d :: rest)
    rw [upperChar_lowerChar, strLower_strLower]

theorem capitalize_hyphenated_strLower (w : Str) :
    capitalize_hyphenated (strLower w) = capitalize_hyphenated w := by
  unfold capitalize_hyphenated
  rw [splitOnC_strLower_45, List.map_map]
  exact congrArg (joinSep [45])
    (List.map_congr_left fun p _ => capPiece_strLower p)

theorem is_roman_numeral_strLower (w : Str) :
    is_roman_numeral (strLower w) = is_roman_numeral w := by
  unfold is_roman_numeral
  rw [strUpper_strLower]

theorem mem_strLower_iff {sep : Nat}
    (hsep : ∀ c, lowerChar c = sep ↔ c = sep) (w : Str) :
    sep ∈ strLower w ↔ sep ∈ w := by
  unfold strLower
  rw [List.mem_map]
  constructor
  · rintro ⟨c, hc, hlc⟩
    exact ((hsep c).mp hlc) ▸ hc
  · intro hc
    exact ⟨sep, hc, (hsep sep).mpr rfl⟩

theorem splitOnC_strLower {sep : Nat}
    (hsep : ∀ c, lowerChar c = sep ↔ c = sep) (w : Str) :
    splitOnC sep (strLower w) = (splitOnC sep w).map strLower :=
  splitOnC_map sep lowerChar hsep w

theorem all_congr_fn {l : List Str} {f g : Str → Bool}
    (h : ∀ x ∈ l, f x = g x) : l.all f = l.all g := by
  induction l with
  | nil => rfl
  | cons a l ih =>
    simp only [List.all_cons, h a (List.mem_cons_self a l),
      ih (fun x hx => h x (List.mem_cons_of_mem a hx))]

theorem any_congr_fn {l : Str} {f g : Nat → Bool}
    (h : ∀ x ∈ l, f x = g x) : l.any f = l.any g := by
  induction l with
  | nil => rfl
  | cons a l ih =>
    simp only [List.any_cons, h a (List.mem_cons_self a l),
      ih (fun x hx => h x (List.mem_cons_of_mem a hx))]

theorem capSepTry_strLower {sep : Nat}
    (hsep : ∀ c, lowerChar c = sep ↔ c = sep) (w : Str) :
    capSepTry sep (strLower w) = capSepTry sep w := by
  unfold capSepTry
  have hmem : sep ∈ strLower w ↔ sep ∈ w := mem_strLower_iff hsep w
  have hsplit := splitOnC_strLower hsep w
  have hall : (splitOnC sep (strLower w)).all (fun x => is_roman_numeral x) =
      (splitOnC sep w).all (fun x => is_roman_numeral x) := by
    rw [hsplit, List.all_map]
    exact all_congr_fn (fun x _ => is_roman_numeral_strLower x)
  have hjoin : joinSep [sep] ((splitOnC sep (strLower w)).map strUpper) =
      joinSep [sep] ((splitOnC sep w).map strUpper) := by
    rw [hsplit, List.map_map]
    exact congrArg _ (List.map_congr_left fun p _ => strUpper_strLower p)
  by_cases hc : sep ∈ w ∧
      (splitOnC sep w).all (fun x => is_roman_numeral x) = true
  · rw [if_pos ⟨hmem.mpr hc.1, by rw [hall]; exact hc.2⟩, if_pos hc, hjoin]
  · rw [if_neg (fun hc2 => hc ⟨hmem.mp hc2.1, by rw [← hall]; exact hc2.2⟩),
      if_neg hc]

theorem cap_special_strLower (w : Str) :
    cap_special (strLower w) = cap_special w := by
  unfold cap_special
  rw [strUpper_strLower, is_roman_numeral_strLower,
    capSepTry_strLower (by intro c; unfold lowerChar; split_ifs <;> omega),
    capSepTry_strLower (by intro c; unfold lowerChar; split_ifs <;> omega),
    capSepTry_strLower (by intro c; unfold lowerChar; split_ifs <;> omega),
    capitalize_hyphenated_strLower]

theorem capParts_strLower (p : Str) :
    capParts (strLower p) = capParts p := by
  unfold capParts
  rw [splitOnC_strLower_45, List.map_map]
  exact congrArg (joinSep [45])
    (List.map_congr_left fun q _ => cap_special_strLower q)

theorem isMarkerSeg_strLower (p : Str) :
    isMarkerSeg (strLower p) = isMarkerSeg p := by
  rcases p with _ | ⟨c, _ | ⟨d, rest⟩⟩
  · rfl
  · show isMarker (lowerChar c) = isMarker c
    exact isMarker_lowerChar c
  · rfl

theorem processPart_strLower (fc isF isL : Bool) (p : Str) :
    processPart fc isF isL (strLower p) = processPart fc isF isL p := by
  rw [processPart_eq, processPart_eq, isMarkerSeg_strLower,
    strLower_strLower]
  split_ifs with h1 h2
  · -- marker piece: a marker character is unchanged by lowercasing
    rcases p with _ | ⟨c, _ | ⟨d, rest⟩⟩
    · rfl
    · have hm : isMarker c = true := by
        simpa [isMarkerSeg] using h1
      show (strLower [c], true) = ([c], true)
      simp [strLower, lowerChar_of_marker hm]
    · simp [isMarkerSeg] at h1
  · rw [capParts_strLower]
  · rfl

theorem processParts_strLower (isF isL : Bool) :
    ∀ ps fc, processParts isF isL fc (ps.map strLower) =
      processParts isF isL fc ps := by
  intro ps
  induction ps with
  | nil => intro fc; rfl
  | cons p ps ih =>
    intro fc
    show ((processPart fc isF isL (strLower p)).1 ++
        (processParts isF isL (processPart fc isF isL (strLower p)).2
          (ps.map strLower)).1,
      (processParts isF isL (processPart fc isF isL (strLower p)).2
        (ps.map strLower)).2) = _
    rw [processPart_strLower, ih]
    rfl

theorem containsMarker_strLower (w : Str) :
    containsMarker (strLower w) = containsMarker w := by
  unfold containsMarker strLower
  rw [List.any_map]
  exact any_congr_fn (fun c _ => isMarker_lowerChar c)

theorem processWord_strLower (fc isF isL : Bool) (w : Str) :
    processWord fc isF isL (strLower w) = processWord fc isF isL w := by
  unfold processWord
  rw [reSplitMarkers_strLower, processParts_strLower,
    containsMarker_strLower]

theorem tcLoop_strLower (n : Nat) :
    ∀ ws idx fc, tcLoop n idx fc (ws.map strLower) = tcLoop n idx fc ws := by
  intro ws
  induction ws with
  | nil => intro idx fc; rfl
  | cons w ws ih =>
    intro idx fc
    show (processWord fc (idx == 0) (idx == n - 1) (strLower w)).1 ::
        tcLoop n (idx + 1)
          (processWord fc (idx == 0) (idx == n - 1) (strLower w)).2
          (ws.map strLower) = _
    rw [processWord_strLower, ih]
    rfl

/-- The title caser is a function of the lowercase form of its input. -/
theorem title_case_strLower (x : Str) :
    title_case_preserve_numbers (strLower x) = title_case_preserve_numbers x := by
  unfold title_case_preserve_numbers tcWords
  rw [show splitWs (strLower x) = (splitWs x).map strLower from
    splitWs_map lowerChar pyIsSpace_lowerChar x]
  rw [List.length_map, tcLoop_strLower]

/-- Collapsing whitespace first does not change the title caser's output. -/
theorem title_case_collapse (x : Str) :
    title_case_preserve_numbers (joinSp (splitWs x)) =
      title_case_preserve_numbers x := by
  unfold title_case_preserve_numbers
  rw [splitWs_joinSp (splitWs x) (splitWs_clean x)]

theorem forall₂_map_lower {rs ws : List Str}
    (h : List.Forall₂ (fun r w => strLower r = strLower w) rs ws) :
    rs.map strLower = ws.map strLower := by
  induction h with
  | nil => rfl
  | cons hrw _ ih => simp only [List.map_cons, hrw, ih]

theorem forall₂_mem_left {rs ws : List Str}
    {R : Str → Str → Prop} (h : List.Forall₂ R rs ws) :
    ∀ r ∈ rs, ∃ w ∈ ws, R r w := by
  induction h with
  | nil => simp
  | cons hrw _ ih =>
    intro r hr
    rcases List.mem_cons.mp hr with rfl | hr
    · exact ⟨_, List.mem_cons_self _ _, hrw⟩
    · obtain ⟨w, hw, hrw'⟩ := ih r hr
      exact ⟨w, List.mem_cons_of_mem _ hw, hrw'⟩

/-- The words produced by the title caser are nonempty and
whitespace-free. -/
theorem tcWords_clean (x : Str) :
    ∀ r ∈ tcWords (splitWs x), r ≠ [] ∧ ∀ c ∈ r, pyIsSpace c = false := by
  intro r hr
  obtain ⟨w, hw, hlow⟩ := forall₂_mem_left (tcWords_lower (splitWs x)) r hr
  obtain ⟨hwne, hwcl⟩ := splitWs_clean x w hw
  constructor
  · intro hre
    subst hre
    have : strLower w = [] := hlow.symm
    exact hwne (by simpa [strLower] using this)
  · intro c hc
    have hmem : lowerChar c ∈ strLower w := by
      rw [← hlow]
      exact List.mem_map_of_mem lowerChar hc
    obtain ⟨d, hd, hdc⟩ := List.mem_map.mp hmem
    have h1 : pyIsSpace c = pyIsSpace (lowerChar c) :=
      (pyIsSpace_lowerChar c).symm
    rw [h1, ← hdc, pyIsSpace_lowerChar]
    exact hwcl d hd

/-- The lowercase form of the title caser's output is the lowercase of the
whitespace-collapsed input. -/
theorem strLower_title_case (x : Str) :
    strLower (title_case_preserve_numbers x) =
      strLower (joinSp (splitWs x)) := by
  unfold title_case_preserve_numbers joinSp
  rw [strLower_joinSep_single 32 (by decide),
    strLower_joinSep_single 32 (by decide)]
  rw [forall₂_map_lower (tcWords_lower (splitWs x))]

-- Claim theorems C2 and C10.

/-- C10 counterexample: under Python's full case mappings the title caser
can insert characters — `"ß"` uppercases to `"SS"` (and the final fix-up
then yields `"Ss"`), whose lowercase `"ss"` differs from the lowercase
`"ß"` of the collapsed input and whose length differs from the
input's. -/
theorem C10_case_only_counterexample :
    Uni.title_case_preserve_numbers (ofString "ß") = ofString "Ss" ∧
    Uni.strLower (Uni.title_case_preserve_numbers (ofString "ß")) ≠
      Uni.strLower (joinSp (splitWs (ofString "ß"))) ∧
    (Uni.title_case_preserve_numbers (ofString "ß")).length ≠
      (ofString "ß").length :=
  ⟨by decide, by decide, by decide⟩

/-- C10 (amended): on inputs of ASCII characters — where Python's case
mappings are one-to-one and the embedding is exact — the title caser only
changes the case of individual characters: its output lowercased equals
the lowercase of the input with every whitespace run collapsed to a single
space and outer whitespace removed, and the number of space-separated
words is preserved.  Full case mappings can insert characters (see the
counterexample). -/
theorem C10_title_case_case_only (x : Str) (_hx : ∀ c ∈ x, c < 128) :
    strLower (title_case_preserve_numbers x) =
      strLower (joinSp (splitWs x)) ∧
    (splitWs (title_case_preserve_numbers x)).length =
      (splitWs x).length := by
  refine ⟨strLower_title_case x, ?_⟩
  unfold title_case_preserve_numbers
  rw [splitWs_joinSp (tcWords (splitWs x)) (tcWords_clean x)]
  exact List.Forall₂.length_eq (tcWords_lower (splitWs x))

/-- Witness for C10 at a concrete ASCII label. -/
theorem C10_title_case_case_only_witness :
    strLower (title_case_preserve_numbers (ofString "game  of ys")) =
      strLower (joinSp (splitWs (ofString "game  of ys"))) ∧
    (splitWs (title_case_preserve_numbers
        (ofString "game  of ys"))).length =
      (splitWs (ofString "game  of ys")).length :=
  C10_title_case_case_only (ofString "game  of ys") (by decide)

/-- C2 counterexample: under Python's full case mappings the title caser
is not idempotent, so it is not the identity on its own image — the
ligature in `"x ﬁve x"` survives the first pass as `"FIve"`
(`capitalize_hyphenated` uppercases only the first character, which
expands to `"FI"`), and the second pass lowercases that `I`. -/
theorem C2_title_case_counterexample :
    Uni.title_case_preserve_numbers (ofString "x ﬁve x") =
      ofString "X FIve X" ∧
    Uni.title_case_preserve_numbers (ofString "X FIve X") =
      ofString "X Five X" ∧
    ofString "X Five X" ≠ ofString "X FIve X" :=
  ⟨by decide, by decide, by decide⟩

/-- C2 (amended): on labels of ASCII characters — where Python's case
mappings are one-to-one and the embedding is exact — the title caser is
idempotent: applying it twice gives the same result as applying it once,
so it is the identity on its image over such labels.  Full case mappings
break idempotence (see the counterexample). -/
theorem C2_title_case_idempotent (y : Str) (_hy : ∀ c ∈ y, c < 128) :
    title_case_preserve_numbers (title_case_preserve_numbers y) =
      title_case_preserve_numbers y :=
  calc
    title_case_preserve_numbers (title_case_preserve_numbers y) =
        title_case_preserve_numbers
          (strLower (title_case_preserve_numbers y)) :=
      (title_case_strLower _).symm
    _ = title_case_preserve_numbers (strLower (joinSp (splitWs y))) := by
      rw [strLower_title_case y]
    _ = title_case_preserve_numbers (joinSp (splitWs y)) :=
      title_case_strLower _
    _ = title_case_preserve_numbers y := title_case_collapse y

/-- Witness for C2 at a concrete ASCII label. -/
theorem C2_title_case_idempotent_witness :
    (∀ c ∈ ofString "zelda: breath of ii", c < 128) ∧
    title_case_preserve_numbers (title_case_preserve_numbers
      (ofString "zelda: breath of ii")) =
      title_case_preserve_numbers (ofString "zelda: breath of ii") :=
  ⟨by decide, C2_title_case_idempotent (ofString "zelda: breath of ii")
    (by decide)⟩

-- Exception words: facts supporting C4 and C5.

/-- A word whose `upper` form is not an acronym, which is not a roman
numeral and which contains none of `&`, `+`, `|` is capitalized by the
generic hyphen-aware rule. -/
theorem cap_special_of_plain {w : Str} (hacr : strUpper w ∉ ACRONYMS)
    (hrom : is_roman_numeral w = false) (h38 : 38 ∉ w) (h43 : 43 ∉ w)
    (h124 : 124 ∉ w) : cap_special w = capitalize_hyphenated w := by
  unfold cap_special
  rw [if_neg hacr, if_neg (by simp [hrom])]
  unfold capSepTry
  rw [if_neg (fun hc => h38 hc.1), if_neg (fun hc => h43 hc.1),
    if_neg (fun hc => h124 hc.1)]

theorem mem_iff_mem_strLower {sep : Nat}
    (hsep : ∀ c, lowerChar c = sep ↔ c = sep) (w : Str) :
    sep ∈ w ↔ sep ∈ strLower w := (mem_strLower_iff hsep w).symm

/-- The basic facts about a word whose lowercase form is one of the
nineteen exception words: it is not an acronym, not a roman numeral, has no
compound separators, no subtitle markers, is nonempty, and all its
characters are (case variants of) lowercase ASCII letters. -/
theorem exceptions_plain {w : Str} (h : strLower w ∈ lowercase_exceptions) :
    strUpper w ∉ ACRONYMS ∧ is_roman_numeral w = false ∧ 38 ∉ w ∧ 43 ∉ w ∧
      124 ∉ w ∧ (∀ c ∈ w, isMarker c = false) ∧ w ≠ [] ∧
      (∀ c ∈ w, 97 ≤ lowerChar c ∧ lowerChar c ≤ 122) := by
  have hup : strUpper w = strUpper (strLower w) := (strUpper_strLower w).symm
  have hrom : is_roman_numeral w = is_roman_numeral (strLower w) :=
    (is_roman_numeral_strLower w).symm
  have h38 := mem_iff_mem_strLower
    (show ∀ c, lowerChar c = 38 ↔ c = 38 by
      intro c; unfold lowerChar; split_ifs <;> omega) w
  have h43 := mem_iff_mem_strLower
    (show ∀ c, lowerChar c = 43 ↔ c = 43 by
      intro c; unfold lowerChar; split_ifs <;> omega) w
  have h124 := mem_iff_mem_strLower
    (show ∀ c, lowerChar c = 124 ↔ c = 124 by
      intro c; unfold lowerChar; split_ifs <;> omega) w
  simp only [lowercase_exceptions, List.map_cons, List.map_nil,
    List.mem_cons, List.not_mem_nil, or_false] at h
  rcases h with h | h | h | h | h | h | h | h | h | h | h | h | h | h | h |
    h | h | h | h <;>
    refine ⟨by rw [hup, h]; decide, by rw [hrom, h]; decide,
      fun hm => absurd (h38.mp hm) (by rw [h]; decide),
      fun hm => absurd (h43.mp hm) (by rw [h]; decide),
      fun hm => absurd (h124.mp hm) (by rw [h]; decide),
      fun c hc => ?_, fun hw => absurd h (by subst hw; decide),
      fun c hc => ?_⟩ <;>
    first
      | (rw [← isMarker_lowerChar]
         exact (show ∀ d ∈ strLower w, isMarker d = false by
            rw [h]; decide) _ (List.mem_map_of_mem lowerChar hc))
      | exact (show ∀ d ∈ strLower w, 97 ≤ d ∧ d ≤ 122 by
          rw [h]; decide) _ (List.mem_map_of_mem lowerChar hc)

/-- A word whose lowercase form is an exception word gets the generic
capitalization from `cap_special`. -/
theorem exceptions_cap_special {w : Str}
    (h : strLower w ∈ lowercase_exceptions) :
    cap_special w = capitalize_hyphenated w := by
  obtain ⟨hacr, hrom, h38, h43, h124, _, _, _⟩ := exceptions_plain h
  exact cap_special_of_plain hacr hrom h38 h43 h124

theorem capParts_of_no_hyphen {p : Str} (h45 : 45 ∉ p) :
    capParts p = cap_special p := by
  unfold capParts
  rw [splitOnC_of_not_mem h45]
  rfl

theorem no_hyphen_of_marker_free {w : Str}
    (h : ∀ c ∈ w, isMarker c = false) : 45 ∉ w := by
  intro hm
  have := h 45 hm
  simp [isMarker] at this

/-- A marker-free word is a single chunk of the separator-keeping split. -/
theorem reSplitMarkers_of_marker_free {w : Str}
    (h : ∀ c ∈ w, isMarker c = false) : reSplitMarkers w = [w] := by
  induction w with
  | nil => rfl
  | cons c rest ih =>
    have hc : isMarker c = false := h c (List.mem_cons_self c rest)
    simp only [reSplitMarkers, hc, Bool.false_eq_true, if_false]
    rw [ih (fun x hx => h x (List.mem_cons_of_mem c hx))]

theorem containsMarker_of_marker_free {w : Str}
    (h : ∀ c ∈ w, isMarker c = false) : containsMarker w = false := by
  unfold containsMarker
  rw [List.any_eq_false]
  intro c hc
  simp [h c hc]

theorem isMarkerSeg_of_marker_free {w : Str}
    (h : ∀ c ∈ w, isMarker c = false) : isMarkerSeg w = false := by
  rcases w with _ | ⟨c, _ | ⟨d, rest⟩⟩
  · rfl
  · show isMarker c = false
    exact h c (List.mem_cons_self c [])
  · rfl

/-- The force flag coming out of the piece loop: true exactly when some
piece is a separator, otherwise the incoming flag. -/
theorem processParts_snd (isF isL : Bool) :
    ∀ ps fc, (processParts isF isL fc ps).2 =
      (ps.any (fun p => isMarkerSeg p) || fc) := by
  intro ps
  induction ps with
  | nil => intro fc; simp [processParts]
  | cons p ps ih =>
    intro fc
    show (processParts isF isL (processPart fc isF isL p).2 ps).2 = _
    rw [ih]
    have hsnd : (processPart fc isF isL p).2 = (isMarkerSeg p || fc) := by
      rw [processPart_eq]
      split_ifs with h1 h2 <;> simp_all
    rw [hsnd, List.any_cons]
    cases isMarkerSeg p <;> cases fc <;> simp

/-- The first element of the separator-keeping split is always a
marker-free chunk. -/
theorem reSplitMarkers_head_chunk :
    ∀ (s : Str) h, (reSplitMarkers s).head? = some h →
      ∀ c ∈ h, isMarker c = false := by
  intro s
  induction s with
  | nil =>
    intro h he c hc
    simp only [reSplitMarkers, List.head?] at he
    cases he
    simp at hc
  | cons a rest ih =>
    intro h he c hc
    by_cases ha : isMarker a = true
    · simp only [reSplitMarkers, ha, if_true, List.head?] at he
      cases he
      simp at hc
    · simp only [Bool.not_eq_true] at ha
      simp only [reSplitMarkers, ha, Bool.false_eq_true, if_false] at he
      rcases hrec : reSplitMarkers rest with _ | ⟨h0, t0⟩
      · exact absurd hrec (reSplitMarkers_ne_nil rest)
      · rw [hrec] at he
        simp only [List.head?] at he
        have hha : h = a :: h0 := by injection he with he1; exact he1.symm
        subst hha
        rcases List.mem_cons.mp hc with rfl | hc
        · exact ha
        · exact ih h0 (by rw [hrec]; rfl) c hc

/-- A word contains a subtitle marker exactly when its split contains a
separator piece. -/
theorem any_markerSeg_eq_containsMarker (w : Str) :
    (reSplitMarkers w).any (fun p => isMarkerSeg p) = containsMarker w := by
  induction w with
  | nil => rfl
  | cons c rest ih =>
    by_cases hc : isMarker c = true
    · simp only [reSplitMarkers, hc, if_true, List.any_cons]
      simp [containsMarker, hc, isMarkerSeg]
    · simp only [Bool.not_eq_true] at hc
      simp only [reSplitMarkers, hc, Bool.false_eq_true, if_false]
      rcases hrec : reSplitMarkers rest with _ | ⟨h0, t0⟩
      · exact absurd hrec (reSplitMarkers_ne_nil rest)
      · have hh0 : ∀ x ∈ h0, isMarker x = false :=
          reSplitMarkers_head_chunk rest h0 (by rw [hrec]; rfl)
        have hch : isMarkerSeg (c :: h0) = false := by
          rcases h0 with _ | ⟨d, rest0⟩
          · show isMarker c = false
            exact hc
          · rfl
        rw [hrec] at ih
        simp only [List.any_cons] at ih
        rw [isMarkerSeg_of_marker_free hh0] at ih
        simp only [Bool.false_or] at ih
        simp only [List.any_cons, hch, Bool.false_or]
        rw [ih]
        simp [containsMarker, hc]

/-- The force flag after one whole word equals: does the word contain a
subtitle marker. -/
theorem processWord_snd (fc isF isL : Bool) (w : Str) :
    (processWord fc isF isL w).2 = containsMarker w := by
  unfold processWord
  show (if containsMarker w then
    (processParts isF isL fc (reSplitMarkers w)).2 else false) = _
  by_cases hm : containsMarker w = true
  · rw [if_pos hm, processParts_snd, any_markerSeg_eq_containsMarker, hm]
    simp
  · simp only [Bool.not_eq_true] at hm
    rw [hm]
    simp

/-- Evaluation of one marker-free word: it wins (and is capitalized) when
forced or at an edge or not an exception word, and is lowercased
otherwise; the outgoing flag is always false. -/
theorem processWord_marker_free {w : Str}
    (hmf : ∀ c ∈ w, isMarker c = false) (fc isF isL : Bool) :
    processWord fc isF isL w =
      (if fc = true ∨ isF = true ∨ isL = true ∨
          strLower w ∉ lowercase_exceptions then capParts w
        else strLower w, false) := by
  unfold processWord
  rw [reSplitMarkers_of_marker_free hmf,
    containsMarker_of_marker_free hmf]
  show ((processParts isF isL fc [w]).1,
    if false = true then (processParts isF isL fc [w]).2 else false) = _
  have hpp : processParts isF isL fc [w] =
      ((processPart fc isF isL w).1 ++ [], (processPart fc isF isL w).2) := rfl
  rw [hpp, processPart_eq, isMarkerSeg_of_marker_free hmf]
  split_ifs with h2 <;> simp_all

-- Claim theorem C5.

/-- C5: the force flag left by a word equals "the word contains a subtitle
separator", so forcing never persists past the first following word without
a separator; a forced marker-free exception word is capitalized while an
unforced mid-label one is lowercased; and the concrete example
`"game: a new hope"` titles to `"Game: A New Hope"`. -/
theorem C5_separator_forcing :
    (∀ fc isF isL w, (processWord fc isF isL w).2 = containsMarker w) ∧
    (∀ w, strLower w ∈ lowercase_exceptions →
      (processWord true false false w).1 = capitalize_hyphenated w ∧
      (processWord false false false w).1 = strLower w) ∧
    title_case_preserve_numbers (ofString "game: a new hope") =
      ofString "Game: A New Hope" := by
  refine ⟨fun fc isF isL w => processWord_snd fc isF isL w,
    fun w hw => ?_, by decide⟩
  obtain ⟨hacr, hrom, h38, h43, h124, hmf, hne, _⟩ := exceptions_plain hw
  constructor
  · rw [processWord_marker_free hmf]
    rw [if_pos (Or.inl rfl)]
    show capParts w = capitalize_hyphenated w
    rw [capParts_of_no_hyphen (no_hyphen_of_marker_free hmf)]
    exact exceptions_cap_special hw
  · rw [processWord_marker_free hmf]
    have hcond : ¬ (false = true ∨ false = true ∨ false = true ∨
        strLower w ∉ lowercase_exceptions) := by
      rintro (h | h | h | h)
      · exact absurd h (by decide)
      · exact absurd h (by decide)
      · exact absurd h (by decide)
      · exact h hw
    rw [if_neg hcond]

/-- Witness for C5 at the exception word `"of"`. -/
theorem C5_separator_forcing_witness :
    (processWord true false false (ofString "of")).1 =
      capitalize_hyphenated (ofString "of") ∧
    (processWord false false false (ofString "of")).1 =
      strLower (ofString "of") :=
  C5_separator_forcing.2.1 (ofString "of") (by decide)

-- Structure of the final fix-up (C4).

theorem capPiece_idem (w : Str) : capPiece (capPiece w) = capPiece w := by
  rcases w with _ | ⟨c, _ | ⟨d, rest⟩⟩
  · rfl
  · show [upperChar (upperChar c)] = [upperChar c]
    rw [upperChar_upperChar]
  · rw [capPiece_cons_cons]
    rcases hres : strLower (d :: rest) with _ | ⟨e, rest2⟩
    · simp [strLower] at hres
    · rw [capPiece_cons_cons, upperChar_upperChar, ← hres,
        strLower_strLower]

theorem ch_of_no_hyphen {w : Str} (h45 : 45 ∉ w) :
    capitalize_hyphenated w = capPiece w := by
  unfold capitalize_hyphenated
  rw [splitOnC_of_not_mem h45]
  rfl

theorem mem45_iff_strLower (z : Str) : 45 ∈ z ↔ 45 ∈ strLower z :=
  mem_iff_mem_strLower lowerChar_eq_45_iff z

theorem not_mem_capPiece_45 {w : Str} (h45 : 45 ∉ w) :
    45 ∉ capPiece w := by
  intro hm
  have h1 : 45 ∈ strLower (capPiece w) := (mem45_iff_strLower _).mp hm
  rw [strLower_capPiece] at h1
  exact h45 ((mem45_iff_strLower w).mpr h1)

theorem strUpper_capPiece (p : Str) : strUpper (capPiece p) = strUpper p := by
  calc strUpper (capPiece p) = strUpper (strLower (capPiece p)) :=
        (strUpper_strLower _).symm
    _ = strUpper (strLower p) := by rw [strLower_capPiece]
    _ = strUpper p := strUpper_strLower p

theorem is_roman_numeral_capPiece (p : Str) :
    is_roman_numeral (capPiece p) = is_roman_numeral p := by
  unfold is_roman_numeral
  rw [strUpper_capPiece]

/-- The fix-up leaves the capitalized form of an exception word
unchanged. -/
theorem fixWord_exception {w : Str}
    (hw : strLower w ∈ lowercase_exceptions) :
    fixWord (capitalize_hyphenated w) = capitalize_hyphenated w := by
  obtain ⟨hacr, hrom, _, _, _, hmf, _, _⟩ := exceptions_plain hw
  have h45 : 45 ∉ w := no_hyphen_of_marker_free hmf
  rw [ch_of_no_hyphen h45]
  unfold fixWord
  rw [splitOnC_of_not_mem (not_mem_capPiece_45 h45)]
  show joinSep [45] [if strUpper (capPiece w) ∈ ACRONYMS ∨
    is_roman_numeral (capPiece w) = true then strUpper (capPiece w)
    else capitalize_hyphenated (capPiece w)] = capPiece w
  rw [strUpper_capPiece, is_roman_numeral_capPiece,
    if_neg (by rw [hrom]; simp [hacr]),
    ch_of_no_hyphen (not_mem_capPiece_45 h45), capPiece_idem]
  rfl

theorem tcLoop_cons (n idx : Nat) (fc : Bool) (w : Str) (ws : List Str) :
    tcLoop n idx fc (w :: ws) =
      (processWord fc (idx == 0) (idx == n - 1) w).1 ::
        tcLoop n (idx + 1) (processWord fc (idx == 0) (idx == n - 1) w).2
          ws := rfl

theorem setLastFix_append :
    ∀ (xs : List Str) (x : Str), setLastFix (xs ++ [x]) = xs ++ [fixWord x] := by
  intro xs
  induction xs with
  | nil => intro x; rfl
  | cons a xs ih =>
    intro x
    cases xs with
    | nil => rfl
    | cons b xs' =>
      show a :: setLastFix ((b :: xs') ++ [x]) = _
      rw [ih x]
      rfl

/-- The last word of the loop output comes from processing the last input
word (with some incoming flag) at the last index. -/
theorem tcLoop_append_last (n : Nat) (w : Str) :
    ∀ ws idx fc, ∃ front fcl, tcLoop n idx fc (ws ++ [w]) =
      front ++ [(processWord fcl ((idx + ws.length) == 0)
        ((idx + ws.length) == n - 1) w).1] ∧ front.length = ws.length := by
  intro ws
  induction ws with
  | nil =>
    intro idx fc
    refine ⟨[], fc, ?_, rfl⟩
    rw [List.nil_append, tcLoop_cons]
    show _ = [(processWord fc ((idx + 0) == 0) ((idx + 0) == n - 1) w).1]
    rfl
  | cons u us ih =>
    intro idx fc
    rw [List.cons_append, tcLoop_cons]
    obtain ⟨front, fcl, heq, hlen⟩ := ih (idx + 1)
      (processWord fc (idx == 0) (idx == n - 1) u).2
    refine ⟨(processWord fc (idx == 0) (idx == n - 1) u).1 :: front, fcl, ?_, ?_⟩
    · rw [heq]
      have harith : idx + 1 + us.length = idx + (us.length + 1) := by omega
      rw [harith]
      rfl
    · simp [hlen]

-- Claim theorems C4.

/-- C4 counterexample: on the one-word label `"i&ii"` the word loop yields
`"I&II"` (via the `&`-compound roman rule of `cap_special`), and
re-capitalizing that with `cap_special` per hyphen part (`capParts`) would
keep `"I&II"`; but the actual final fix-up (`fixWord`, which lacks the
compound rule) produces `"I&ii"`, which is what the title caser returns —
so the fix-up does not apply `cap_special`. -/
theorem C4_fixup_counterexample :
    title_case_preserve_numbers (ofString "i&ii") = ofString "I&ii" ∧
    tcLoop 1 0 false [ofString "i&ii"] = [ofString "I&II"] ∧
    capParts (ofString "I&II") = ofString "I&II" ∧
    fixWord (ofString "I&II") = ofString "I&ii" ∧
    ofString "I&ii" ≠ ofString "I&II" := by
  refine ⟨by decide, by decide, by decide, by decide, by decide⟩

/-- C4 (amended): the final fix-up re-capitalizes the first and the last
word by uppercasing acronym or roman-numeral hyphen parts and applying
hyphen-aware capitalization to the rest (without the `&`/`+`/`|` compound
rule of `cap_special`); consequently a first or last word whose lowercase
form is in the exception set is still capitalized, never left lowercase. -/
theorem C4_edge_recapitalization (x : Str) :
    (∀ w ws, splitWs x = w :: ws → strLower w ∈ lowercase_exceptions →
      ∃ rest, tcWords (splitWs x) = capitalize_hyphenated w :: rest) ∧
    (∀ ws w, splitWs x = ws ++ [w] → strLower w ∈ lowercase_exceptions →
      ∃ front, tcWords (splitWs x) = front ++ [capitalize_hyphenated w]) ∧
    (∀ w, strLower w ∈ lowercase_exceptions →
      capitalize_hyphenated w ≠ strLower w) := by
  refine ⟨?_, ?_, ?_⟩
  · intro w ws hsp hw
    obtain ⟨hacr, hrom, _, _, _, hmf, hne, _⟩ := exceptions_plain hw
    have h45 : 45 ∉ w := no_hyphen_of_marker_free hmf
    unfold tcWords
    rw [hsp, tcLoop_cons]
    have hr : (processWord false ((0 : Nat) == 0)
        ((0 : Nat) == (w :: ws).length - 1) w).1 = capitalize_hyphenated w := by
      rw [processWord_marker_free hmf]
      have hc : false = true ∨ (((0 : Nat) == 0) = true) ∨
          ((((0 : Nat) == (w :: ws).length - 1)) = true) ∨
          strLower w ∉ lowercase_exceptions := Or.inr (Or.inl rfl)
      rw [if_pos hc]
      show capParts w = capitalize_hyphenated w
      rw [capParts_of_no_hyphen h45]
      exact exceptions_cap_special hw
    rw [hr]
    rcases hloop : tcLoop (w :: ws).length 1
        (processWord false ((0 : Nat) == 0)
          ((0 : Nat) == (w :: ws).length - 1) w).2 ws with _ | ⟨r1, rs'⟩
    · refine ⟨[], ?_⟩
      show setLastFix [fixWord (capitalize_hyphenated w)] = _
      rw [fixWord_exception hw]
      show [fixWord (capitalize_hyphenated w)] = _
      rw [fixWord_exception hw]
    · refine ⟨setLastFix (r1 :: rs'), ?_⟩
      show setLastFix (fixWord (capitalize_hyphenated w) :: r1 :: rs') = _
      rw [fixWord_exception hw]
      rfl
  · intro ws w hsp hw
    obtain ⟨hacr, hrom, _, _, _, hmf, hne, _⟩ := exceptions_plain hw
    have h45 : 45 ∉ w := no_hyphen_of_marker_free hmf
    unfold tcWords
    rw [hsp]
    obtain ⟨front, fcl, heq, hlen⟩ :=
      tcLoop_append_last (ws ++ [w]).length w ws 0 false
    have hlast : ((0 + ws.length : Nat) == (ws ++ [w]).length - 1) = true := by
      simp [List.length_append]
    have hr : (processWord fcl ((0 + ws.length : Nat) == 0)
        ((0 + ws.length : Nat) == (ws ++ [w]).length - 1) w).1 =
        capitalize_hyphenated w := by
      rw [hlast, processWord_marker_free hmf]
      have hc : fcl = true ∨ (((0 + ws.length : Nat) == 0) = true) ∨
          (true = true) ∨ strLower w ∉ lowercase_exceptions :=
        Or.inr (Or.inr (Or.inl rfl))
      rw [if_pos hc]
      show capParts w = capitalize_hyphenated w
      rw [capParts_of_no_hyphen h45]
      exact exceptions_cap_special hw
    rw [heq, hr]
    rcases front with _ | ⟨r0, front'⟩
    · refine ⟨[], ?_⟩
      show setLastFix [fixWord (capitalize_hyphenated w)] = _
      rw [fixWord_exception hw]
      show [fixWord (capitalize_hyphenated w)] = _
      rw [fixWord_exception hw]
      rfl
    · refine ⟨fixWord r0 :: front', ?_⟩
      show setLastFix (fixWord r0 :: (front' ++ [capitalize_hyphenated w])) = _
      rw [show fixWord r0 :: (front' ++ [capitalize_hyphenated w]) =
        (fixWord r0 :: front') ++ [capitalize_hyphenated w] from rfl]
      rw [setLastFix_append, fixWord_exception hw]
  · intro w hw
    obtain ⟨_, _, _, _, _, hmf, hne, hlet⟩ := exceptions_plain hw
    have h45 : 45 ∉ w := no_hyphen_of_marker_free hmf
    rw [ch_of_no_hyphen h45]
    rcases w with _ | ⟨c, rest⟩
    · exact absurd rfl hne
    · have hb := hlet c (List.mem_cons_self c rest)
      have hul : upperChar c ≠ lowerChar c := by
        unfold lowerChar at hb
        unfold lowerChar upperChar
        split_ifs at hb ⊢ <;> omega
      rcases rest with _ | ⟨d, rest'⟩
      · show [upperChar c] ≠ strLower [c]
        simpa [strLower] using hul
      · rw [capPiece_cons_cons]
        show upperChar c :: strLower (d :: rest') ≠
          lowerChar c :: strLower (d :: rest')
        simp [hul]

/-- Witness for C4 at concrete labels. -/
theorem C4_edge_recapitalization_witness :
    (∃ rest, tcWords (splitWs (ofString "of mice")) =
      capitalize_hyphenated (ofString "of") :: rest) ∧
    (∃ front, tcWords (splitWs (ofString "king of")) =
      front ++ [capitalize_hyphenated (ofString "of")]) ∧
    capitalize_hyphenated (ofString "of") ≠ strLower (ofString "of") :=
  ⟨(C4_edge_recapitalization (ofString "of mice")).1 (ofString "of")
      [ofString "mice"] (by decide) (by decide),
   (C4_edge_recapitalization (ofString "king of")).2.1 [ofString "king"]
      (ofString "of") (by decide) (by decide),
   (C4_edge_recapitalization (ofString "x")).2.2 (ofString "of") (by decide)⟩

-- Substring containment lemmas for the path claims.

theorem containsSeq_infix_iff (pat s : Str) :
    containsSeq pat s = true ↔ pat <:+: s := by
  induction s with
  | nil =>
    show pat.isPrefixOf [] = true ↔ _
    rw [List.isPrefixOf_iff_prefix, List.prefix_nil, List.infix_nil]
  | cons a rest ih =>
    show (pat.isPrefixOf (a :: rest) || containsSeq pat rest) = true ↔ _
    rw [Bool.or_eq_true, List.isPrefixOf_iff_prefix, ih,
      List.infix_cons_iff]

theorem infix_append_left {l r : Str} (x : Str) (h : l <:+: r) :
    l <:+: x ++ r := by
  obtain ⟨s, t, rfl⟩ := h
  exact ⟨x ++ s, t, by simp⟩

theorem infix_joinSep_of_mem {pat seg : Str} {parts : List Str}
    (hseg : seg ∈ parts) (hpat : pat <:+: seg) :
    pat <:+: joinSep [47] parts := by
  induction parts with
  | nil => simp at hseg
  | cons p ps ih =>
    rcases List.mem_cons.mp hseg with rfl | hmem
    · cases ps with
      | nil => exact hpat
      | cons q qs =>
        obtain ⟨s, t, rfl⟩ := hpat
        exact ⟨s, t ++ [47] ++ joinSep [47] (q :: qs), by
          simp [joinSep, List.append_assoc]⟩
    · cases ps with
      | nil => simp at hmem
      | cons q qs =>
        show pat <:+: (p ++ [47]) ++ joinSep [47] (q :: qs)
        exact infix_append_left _ (ih hmem)

/-- A substring of one path segment is a substring of the joined path. -/
theorem containsSeq_of_mem_split {pat seg rel : Str}
    (hseg : seg ∈ splitOnC 47 rel)
    (hpat : containsSeq pat seg = true) : containsSeq pat rel = true := by
  rw [containsSeq_infix_iff] at hpat ⊢
  have h := infix_joinSep_of_mem hseg hpat
  rwa [joinSep_splitOnC] at h

-- Claim theorems C1, C3, C7.

/-- C3: KeatonTheBot's `get_game_name_and_mod_name` raises `IndexError`
(modelled as `none`) on the relative path `"Game v1"` — a single segment
below the root containing a `" v<digits>"` marker — because the
version-suffix branch evaluates `parts[-2]` on a one-element list instead
of falling through to the `"Mods"` fallback. -/
theorem C3_keaton_index_error :
    Keaton.get_game_name_and_mod_name (ofString "root")
      (ofString "Game v1") = none := by decide

/-- C1 counterexample: on the relative path `"[a]/m"` the KeatonTheBot
variant returns an empty game name — the game folder `"[a]"` reduces to the
empty string after bracket removal — refuting the claim that neither field
of the returned pair is ever empty. -/
theorem C1_nonempty_counterexample :
    Keaton.get_game_name_and_mod_name (ofString "root") (ofString "[a]/m") =
      some (([] : Str), ofString "[a]") := by decide

set_option maxHeartbeats 2000000 in
/-- C1 (amended): for a relative path with a single segment containing
neither `"Aspect Ratio"` nor a `" v<digit>"` marker (`\d` accepting any
Unicode decimal digit, as in Python), each variant returns
its own (nonempty) fallback constant as the mod name — `"Mods"` for
KeatonTheBot and theboy181, `"Port Mods"` for StevensND, and
`"Ultrawide Mods"` for Fl4sh9174 when no bracketed tag exists; the
game-name and mod-name fields themselves, however, can be empty for
degenerate segments (see the counterexample). -/
theorem C1_fallback_constants (rootLast rel : Str) (h47 : (47 : Nat) ∉ rel)
    (hAR : containsSeq (ofString "Aspect Ratio") rel = false) :
    (hasSpaceVNum rel = false →
      (∃ g, Keaton.get_game_name_and_mod_name rootLast rel =
        some (g, ofString "Mods")) ∧
      (Theboy181.get_game_name_and_mod_name rel).2 = ofString "Mods") ∧
    (StevensND.get_game_name_and_mod_name rel).2 = ofString "Port Mods" ∧
    (Fl4sh9174.bracketGroup rel = none →
      Fl4sh9174.mod_name_of_relative rel = ofString "Ultrawide Mods") := by
  have hsplit : splitOnC 47 rel = [rel] := splitOnC_of_not_mem h47
  have hlast : ([rel] : List Str).getLastD [] = rel := rfl
  refine ⟨fun hv => ⟨?_, ?_⟩, ?_, fun hb => ?_⟩
  · refine ⟨clean_title (transform_game_name (pyStrip (stripBrackets rel))), ?_⟩
    unfold Keaton.get_game_name_and_mod_name
    rw [hsplit, hAR]
    simp only [Bool.false_eq_true, if_false]
    rw [hlast, hv]
    simp only [Bool.false_eq_true, if_false]
    rw [if_neg (show ¬ 2 ≤ ([rel] : List Str).length by simp)]
    rw [show clean_title (ofString "Mods") = ofString "Mods" from by decide]
    rfl
  · unfold Theboy181.get_game_name_and_mod_name
    rw [hsplit, hAR]
    simp only [Bool.false_eq_true, if_false]
    rw [hlast, hv]
    simp only [Bool.false_eq_true, if_false]
    rw [if_neg (show ¬ 1 < ([rel] : List Str).length by simp)]
    rfl
  · unfold StevensND.get_game_name_and_mod_name
    rw [hsplit, hAR]
    simp only [Bool.false_eq_true, if_false]
    show (if StevensND.stripTrailingV (StevensND.strip_versions
          (ofString "Port Mods")) ≠ ([] : Str)
        then clean_title (StevensND.stripTrailingV (StevensND.strip_versions
          (ofString "Port Mods")))
        else ofString "Port Mods") = ofString "Port Mods"
    decide
  · unfold Fl4sh9174.mod_name_of_relative
    rw [hb]

/-- Witness for C1 at a concrete single-segment path. -/
theorem C1_fallback_constants_witness :
    ((∃ g, Keaton.get_game_name_and_mod_name (ofString "r")
        (ofString "Zelda") = some (g, ofString "Mods")) ∧
      (Theboy181.get_game_name_and_mod_name (ofString "Zelda")).2 =
        ofString "Mods") ∧
    (StevensND.get_game_name_and_mod_name (ofString "Zelda")).2 =
      ofString "Port Mods" ∧
    (Fl4sh9174.bracketGroup (ofString "Zelda") = none →
      Fl4sh9174.mod_name_of_relative (ofString "Zelda") =
        ofString "Ultrawide Mods") := by
  have h := C1_fallback_constants (ofString "r") (ofString "Zelda")
    (by decide) (by decide)
  exact ⟨h.1 (by decide), h.2.1, h.2.2⟩

-- Support for C7: the post-processed aspect-ratio label keeps its leading
-- capital A, so theboy181's Trailblazers rewrite and empty-string fallback
-- never fire on it.

lemma dropWhile_concat_of_neg {p : Nat → Bool} {c : Nat} (hc : p c = false)
    (l : Str) : ∃ t, (l ++ [c]).dropWhile p = t ++ [c] := by
  induction l with
  | nil =>
    refine ⟨[], ?_⟩
    simp [List.dropWhile_cons, hc]
  | cons a l ih =>
    by_cases ha : p a = true
    · obtain ⟨t, ht⟩ := ih
      refine ⟨t, ?_⟩
      simp [List.dropWhile_cons, ha, ht]
    · refine ⟨a :: l, ?_⟩
      simp [List.dropWhile_cons, ha]

lemma pyStrip_cons_not_space {c : Nat} (hc : pyIsSpace c = false) (xs : Str) :
    ∃ t, pyStrip (c :: xs) = c :: t := by
  unfold pyStrip
  rw [List.dropWhile_cons]
  rw [if_neg (by simp [hc])]
  rw [List.reverse_cons]
  obtain ⟨t, ht⟩ := dropWhile_concat_of_neg hc xs.reverse
  rw [ht]
  exact ⟨t.reverse, by simp⟩

lemma replace219_cons_65 (l : Str) :
    Theboy181.replace219 (65 :: l) = 65 :: Theboy181.replace219 l := rfl

/-- C7 counterexample: KeatonTheBot's aspect-ratio rule does not insert
the deepest folder name — on `"Game/Aspect Ratio/16-9"` it uses
`basename(dirname(path))`, the parent `"Aspect Ratio"`, so the mod label
is `"Aspect Ratio Aspect Ratio"` and not the deepest-folder label
`"Aspect Ratio 16-9"`. -/
theorem C7_keaton_parent_counterexample :
    Keaton.get_game_name_and_mod_name (ofString "r")
        (ofString "Game/Aspect Ratio/16-9") =
      some (ofString "Game", ofString "Aspect Ratio Aspect Ratio") ∧
    ofString "Aspect Ratio Aspect Ratio" ≠
      clean_title (ofString "Aspect Ratio 16-9") :=
  ⟨by decide, by decide⟩

set_option maxHeartbeats 1000000 in
/-- C7 (amended): whenever the relative path contains the substring
`"Aspect Ratio"`, every variant that implements the aspect-ratio rule
derives the mod label from it and not from the version-suffix or
parent-folder rules; the inserted folder name differs per variant —
StevensND and theboy181 use the deepest folder name, while KeatonTheBot
uses the parent of the content directory (`basename(dirname(path))`, with
`'` replaced by `.`; see the counterexample) — and for theboy181 the label
then runs through that variant's replacement pipeline but never hits the
`"Trailblazers"` rewrite or the empty-string fallback. -/
theorem C7_aspect_priority (rootLast rel : Str)
    (hAR : containsSeq (ofString "Aspect Ratio") rel = true) :
    (∃ g, Keaton.get_game_name_and_mod_name rootLast rel =
      some (g, clean_title (ofString "Aspect Ratio " ++
        (Keaton.aspectParent rootLast (splitOnC 47 rel)).map
          (fun c => if c = 39 then 46 else c)))) ∧
    (StevensND.get_game_name_and_mod_name rel).2 =
      clean_title (ofString "Aspect Ratio " ++ (splitOnC 47 rel).getLastD []) ∧
    (Theboy181.get_game_name_and_mod_name rel).2 =
      clean_title ((Theboy181.replace219
          ((pyStrip (ofString "Aspect Ratio " ++
              (splitOnC 47 rel).getLastD [])).map
            (fun c => if c = 39 ∨ c = 96 then 46 else c))).filter
        (fun c => ¬ c = 58)) := by
  refine ⟨?_, ?_, ?_⟩
  · unfold Keaton.get_game_name_and_mod_name
    simp only [hAR, eq_self_iff_true, if_true]
    exact ⟨_, rfl⟩
  · unfold StevensND.get_game_name_and_mod_name
    simp only [hAR, eq_self_iff_true, if_true]
  · unfold Theboy181.get_game_name_and_mod_name
    simp only [hAR, eq_self_iff_true, if_true]
    have hcons : ofString "Aspect Ratio " ++ (splitOnC 47 rel).getLastD [] =
        65 :: (ofString "spect Ratio " ++ (splitOnC 47 rel).getLastD []) := rfl
    obtain ⟨t, ht⟩ := pyStrip_cons_not_space
      (show pyIsSpace 65 = false from by decide)
      (ofString "spect Ratio " ++ (splitOnC 47 rel).getLastD [])
    rw [hcons, ht, List.map_cons]
    rw [show (if (65 : Nat) = 39 ∨ (65 : Nat) = 96 then 46 else 65) = 65
      from by decide]
    rw [replace219_cons_65, List.filter_cons_of_pos (by decide)]
    rw [if_neg (show ¬ (65 :: List.filter (fun c => ¬ c = 58)
        (Theboy181.replace219 (t.map (fun c =>
          if c = 39 ∨ c = 96 then 46 else c))) = ofString "Trailblazers") from
      by
        intro h
        have h2 : (65 : Nat) = 84 := List.head_eq_of_cons_eq (h.trans
          (show ofString "Trailblazers" = 84 :: ofString "railblazers"
            from rfl))
        exact absurd h2 (by decide))]
    rw [if_pos (List.cons_ne_nil _ _)]

/-- Witness for C7 at the concrete path `"Game/Aspect Ratio/16-9"`. -/
theorem C7_aspect_priority_witness :
    (∃ g, Keaton.get_game_name_and_mod_name (ofString "r")
        (ofString "Game/Aspect Ratio/16-9") =
      some (g, clean_title (ofString "Aspect Ratio " ++
        (Keaton.aspectParent (ofString "r")
            (splitOnC 47 (ofString "Game/Aspect Ratio/16-9"))).map
          (fun c => if c = 39 then 46 else c)))) ∧
    (StevensND.get_game_name_and_mod_name
        (ofString "Game/Aspect Ratio/16-9")).2 =
      clean_title (ofString "Aspect Ratio " ++
        (splitOnC 47 (ofString "Game/Aspect Ratio/16-9")).getLastD []) ∧
    (Theboy181.get_game_name_and_mod_name
        (ofString "Game/Aspect Ratio/16-9")).2 =
      clean_title ((Theboy181.replace219
          ((pyStrip (ofString "Aspect Ratio " ++
              (splitOnC 47
                (ofString "Game/Aspect Ratio/16-9")).getLastD [])).map
            (fun c => if c = 39 ∨ c = 96 then 46 else c))).filter
        (fun c => ¬ c = 58)) :=
  C7_aspect_priority (ofString "r") (ofString "Game/Aspect Ratio/16-9")
    (by decide)

end Alchemist

